import Mathlib

/-!
Verification development for the cargo-dependency snippet extractor
(scripts/download_cargo_deps.py).

Strings are modelled as lists of characters (`Str`).  Every definition in
the first part of this file is a direct translation of a function of the
script: `compute_content_hash`, `extract_dependency_sections`,
`split_by_blank_lines`, `save_hashed_snippet` and `download_cargo_toml`
(the latter over an oracle for the network).  The second part proves the
specification claims about these definitions.
-/

abbrev Str := List Char

/-- Python `str.strip()` whitespace characters (ASCII subset used here). -/
def isPySpace (c : Char) : Bool :=
  c == ' ' || c == '\t' || c == '\n' || c == '\r' || c == '\x0b' || c == '\x0c'

def dropLeadingSpace : Str → Str
  | [] => []
  | c :: cs => if isPySpace c then dropLeadingSpace cs else c :: cs

/-- Python `s.strip()`: remove leading and trailing whitespace. -/
def pyStrip (s : Str) : Str :=
  dropLeadingSpace ((dropLeadingSpace s.reverse).reverse)

/-- Python `s.startswith(p)`. -/
def startsWith : Str → Str → Bool
  | _, [] => true
  | [], _ :: _ => false
  | c :: cs, p :: ps => c == p && startsWith cs ps

/-- Python `s.split(sep)` for a single-character separator. -/
def splitOnChar (sep : Char) : Str → List Str
  | [] => [[]]
  | c :: cs =>
    let r := splitOnChar sep cs
    if c == sep then [] :: r else (c :: r.headD []) :: r.tail

/-- Python `sep.join(parts)` for a single-character separator. -/
def joinOnChar (sep : Char) : List Str → Str
  | [] => []
  | [l] => l
  | l :: ls => l ++ sep :: joinOnChar sep ls

def splitNl : Str → List Str := splitOnChar '\n'

def joinNl : List Str → Str := joinOnChar '\n'

def splitComma : Str → List Str := splitOnChar ','

/-- Python `', '.join(parts)`. -/
def joinCommaSp : List Str → Str
  | [] => []
  | [s] => s
  | s :: ss => s ++ ',' :: ' ' :: joinCommaSp ss

/-- Python `line.count(c)`. -/
def countChar (c : Char) (s : Str) : Nat :=
  (s.filter (fun x => x == c)).length

/-! ## SHA-256 (as used by `hashlib.sha256(...).hexdigest()`) -/

def utf8Char (c : Char) : List Nat :=
  let n := c.toNat
  if n < 128 then [n]
  else if n < 2048 then [192 + n / 64, 128 + n % 64]
  else if n < 65536 then [224 + n / 4096, 128 + (n / 64) % 64, 128 + n % 64]
  else [240 + n / 262144, 128 + (n / 4096) % 64, 128 + (n / 64) % 64, 128 + n % 64]

def utf8Bytes (s : Str) : List Nat :=
  (s.map utf8Char).flatten

def w32 : Nat := 4294967296

def add32 (a b : Nat) : Nat := (a + b) % w32

def rotr32 (x n : Nat) : Nat :=
  Nat.lor (x >>> n) ((x <<< (32 - n)) % w32)

def bigSigma0 (x : Nat) : Nat := Nat.xor (Nat.xor (rotr32 x 2) (rotr32 x 13)) (rotr32 x 22)

def bigSigma1 (x : Nat) : Nat := Nat.xor (Nat.xor (rotr32 x 6) (rotr32 x 11)) (rotr32 x 25)

def smallSigma0 (x : Nat) : Nat := Nat.xor (Nat.xor (rotr32 x 7) (rotr32 x 18)) (x >>> 3)

def smallSigma1 (x : Nat) : Nat := Nat.xor (Nat.xor (rotr32 x 17) (rotr32 x 19)) (x >>> 10)

def chF (x y z : Nat) : Nat := Nat.xor (Nat.land x y) (Nat.land (Nat.xor x 4294967295) z)

def majF (x y z : Nat) : Nat :=
  Nat.xor (Nat.xor (Nat.land x y) (Nat.land x z)) (Nat.land y z)

def K256 : List Nat :=
  [1116352408, 1899447441, 3049323471, 3921009573,
   961987163, 1508970993, 2453635748, 2870763221,
   3624381080, 310598401, 607225278, 1426881987,
   1925078388, 2162078206, 2614888103, 3248222580,
   3835390401, 4022224774, 264347078, 604807628,
   770255983, 1249150122, 1555081692, 1996064986,
   2554220882, 2821834349, 2952996808, 3210313671,
   3336571891, 3584528711, 113926993, 338241895,
   666307205, 773529912, 1294757372, 1396182291,
   1695183700, 1986661051, 2177026350, 2456956037,
   2730485921, 2820302411, 3259730800, 3345764771,
   3516065817, 3600352804, 4094571909, 275423344,
   430227734, 506948616, 659060556, 883997877,
   958139571, 1322822218, 1537002063, 1747873779,
   1955562222, 2024104815, 2227730452, 2361852424,
   2428436474, 2756734187, 3204031479, 3329325298]

structure Hash8 where
  a : Nat
  b : Nat
  c : Nat
  d : Nat
  e : Nat
  f : Nat
  g : Nat
  h : Nat

def initHash : Hash8 :=
  ⟨1779033703, 3144134277, 1013904242, 2773480762, 1359893119, 2600822924, 528734635, 1541459225⟩

def shaRound (st : Hash8) (kw : Nat × Nat) : Hash8 :=
  let t1 := add32 st.h (add32 (bigSigma1 st.e) (add32 (chF st.e st.f st.g) (add32 kw.1 kw.2)))
  let t2 := add32 (bigSigma0 st.a) (majF st.a st.b st.c)
  ⟨add32 t1 t2, st.a, st.b, st.c, add32 st.d t1, st.e, st.f, st.g⟩

def addHash (x y : Hash8) : Hash8 :=
  ⟨add32 x.a y.a, add32 x.b y.b, add32 x.c y.c, add32 x.d y.d,
   add32 x.e y.e, add32 x.f y.f, add32 x.g y.g, add32 x.h y.h⟩

/-- Extend the 16-word block to the 64-word message schedule (`n` more words). -/
def buildSched : Nat → List Nat → List Nat
  | 0, ws => ws
  | n + 1, ws =>
    let i := ws.length
    let x := add32 (add32 (smallSigma1 (ws.getD (i - 2) 0)) (ws.getD (i - 7) 0))
                   (add32 (smallSigma0 (ws.getD (i - 15) 0)) (ws.getD (i - 16) 0))
    buildSched n (ws ++ [x])

def bytesToWords : List Nat → List Nat
  | b0 :: b1 :: b2 :: b3 :: rest =>
    (((b0 * 256 + b1) * 256 + b2) * 256 + b3) :: bytesToWords rest
  | _ => []

def lenBytes (n : Nat) : List Nat :=
  (List.range 8).map (fun i => (n >>> (56 - 8 * i)) % 256)

def padMessage (msg : List Nat) : List Nat :=
  let z := (119 - msg.length % 64) % 64
  msg ++ [128] ++ List.replicate z 0 ++ lenBytes (8 * msg.length)

def toChunks (bs : List Nat) : List (List Nat) :=
  if h : bs = [] then []
  else bs.take 64 :: toChunks (bs.drop 64)
termination_by bs.length
decreasing_by
  simp only [List.length_drop]
  cases bs
  · exact absurd rfl h
  · simp; omega

def processChunk (st : Hash8) (chunk : List Nat) : Hash8 :=
  let ws := buildSched 48 (bytesToWords chunk)
  addHash st ((K256.zip ws).foldl shaRound st)

def hexDigit (n : Nat) : Char :=
  if n < 10 then Char.ofNat (48 + n) else Char.ofNat (87 + n)

def toHex8 (x : Nat) : Str :=
  (List.range 8).map (fun i => hexDigit ((x >>> (4 * (7 - i))) % 16))

def sha256hex (msg : List Nat) : Str :=
  let d := (toChunks (padMessage msg)).foldl processChunk initHash
  toHex8 d.a ++ toHex8 d.b ++ toHex8 d.c ++ toHex8 d.d ++
  toHex8 d.e ++ toHex8 d.f ++ toHex8 d.g ++ toHex8 d.h

/-! ## compute_content_hash -/

def metaTag1 : Str := ("# Source:").toList

def metaTag2 : Str := ("# Section:").toList

def metaTag3 : Str := ("# Auto-generated").toList

/-- The metadata-comment test applied to each line of the content. -/
def isMetaLine (line : Str) : Bool :=
  startsWith (pyStrip line) metaTag1 || startsWith (pyStrip line) metaTag2 ||
  startsWith (pyStrip line) metaTag3

/-- The normalization performed inside `compute_content_hash`: drop metadata
comment lines, rejoin, and strip the result. -/
def normalizeContent (content : Str) : Str :=
  pyStrip (joinNl ((splitNl content).filter (fun l => !isMetaLine l)))

/-- The function `compute_content_hash`: SHA-256 hex digest of the normalized content. -/
def compute_content_hash (content : Str) : Str :=
  sha256hex (utf8Bytes (normalizeContent content))

/-! ## extract_dependency_sections -/

def lowerAscii (c : Char) : Char :=
  if 'A' ≤ c && c ≤ 'Z' then Char.ofNat (c.toNat + 32) else c

/-- Matching of one of the four recognized section patterns (`re.match` with no anchors, so a
prefix match on the stripped line), case-insensitively; returns the name. -/
def matchSection (line : Str) : Option Str :=
  let s := (pyStrip line).map lowerAscii
  if startsWith s (("[dependencies]").toList) then some (("dependencies").toList)
  else if startsWith s (("[dev-dependencies]").toList) then some (("dev-dependencies").toList)
  else if startsWith s (("[build-dependencies]").toList) then some (("build-dependencies").toList)
  else if startsWith s (("[workspace.dependencies]").toList) then
    some (("workspace.dependencies").toList)
  else none

/-- Matching of the bracketed-header pattern on the stripped line (the lines
fed to it in this program never contain a newline). -/
def isHeaderLine (line : Str) : Bool :=
  match pyStrip line with
  | [] => false
  | [_] => false
  | c :: rest => c == '[' && rest.getLast? == some ']'

/-- Python dict assignment `d[k] = v` (insertion order preserved). -/
def dictSet (d : List (Str × Str)) (k v : Str) : List (Str × Str) :=
  if d.any (fun p => p.1 == k) then d.map (fun p => if p.1 == k then (k, v) else p)
  else d ++ [(k, v)]

structure ExtractState where
  cur : Option Str
  content : List Str
  sections : List (Str × Str)
deriving DecidableEq

/-- The flush `if current_section and current_content: sections[current_section] = ...` -/
def flushSection (st : ExtractState) : List (Str × Str) :=
  match st.cur with
  | some name => if st.content.isEmpty then st.sections else dictSet st.sections name (joinNl st.content)
  | none => st.sections

def extractStep (st : ExtractState) (line : Str) : ExtractState :=
  match matchSection line with
  | some name => ⟨some name, [line], flushSection st⟩
  | none =>
    if isHeaderLine line then ⟨none, [], flushSection st⟩
    else
      match st.cur with
      | some _ => ⟨st.cur, st.content ++ [line], st.sections⟩
      | none => st

def initES : ExtractState := ⟨none, [], []⟩

def extractLines (ls : List Str) : List (Str × Str) :=
  flushSection (ls.foldl extractStep initES)

def extract_dependency_sections (content : Str) : List (Str × Str) :=
  extractLines (splitNl content)

/-! ## split_by_blank_lines -/

def openCount (line : Str) : Nat := countChar '[' line + countChar '\x7b' line

def closeCount (line : Str) : Nat := countChar ']' line + countChar '\x7d' line

/-- The per-line bracket bookkeeping of `split_by_blank_lines`
(`in_multiline`, `bracket_count`). -/
def bracketUpd (inM : Bool) (b : Int) (line : Str) : Bool × Int :=
  if !inM then
    if (openCount line : Int) > (closeCount line : Int) then
      (true, (openCount line : Int) - (closeCount line : Int))
    else (inM, b)
  else
    if b + (openCount line : Int) - (closeCount line : Int) ≤ 0 then (false, 0)
    else (true, b + (openCount line : Int) - (closeCount line : Int))

/-- The group-retention test: some line is non-blank, not a comment, and
contains an assignment. -/
def hasDeps (g : List Str) : Bool :=
  g.any (fun l => !(pyStrip l).isEmpty && !startsWith (pyStrip l) ['#'] && l.contains '=')

structure GroupState where
  groups : List Str
  current : List Str
  inMulti : Bool
  bracket : Int
deriving DecidableEq

def groupStep (st : GroupState) (line : Str) : GroupState :=
  let u := bracketUpd st.inMulti st.bracket line
  if (pyStrip line).isEmpty && !u.1 then
    if !st.current.isEmpty then
      if hasDeps st.current then ⟨st.groups ++ [joinNl st.current], [], u.1, u.2⟩
      else ⟨st.groups, [], u.1, u.2⟩
    else ⟨st.groups, st.current, u.1, u.2⟩
  else ⟨st.groups, st.current ++ [line], u.1, u.2⟩

def initGS : GroupState := ⟨[], [], false, 0⟩

def groupScan (ls : List Str) : GroupState := ls.foldl groupStep initGS

/-- The main loop of `split_by_blank_lines` over the post-header lines,
including the final flush of the last group. -/
def runGroups (ls : List Str) : List Str :=
  let st := groupScan ls
  st.groups ++ (if !st.current.isEmpty && hasDeps st.current then [joinNl st.current] else [])

/-- The computation of `start_idx`: one past the first line matching the header pattern, 0 if none. -/
def startIdx (ls : List Str) : Nat :=
  match ls.findIdx? (fun l => isHeaderLine l) with
  | some i => i + 1
  | none => 0

def split_by_blank_lines (content : Str) : List Str :=
  let lines := splitNl content
  runGroups (lines.drop (startIdx lines))

/-! ## save_hashed_snippet -/

def srcTag : Str := ("# Sources:").toList

def hashLinePre : Str := ("# Hash: ").toList

def srcLinePre : Str := ("# Sources: ").toList

def autoLine : Str := ("# Auto-generated - do not edit").toList

/-- The file written when the hash entry does not exist yet. -/
def initialFile (contentHash : Str) (sources : List Str) (content : Str) : Str :=
  hashLinePre ++ contentHash ++ '\n' :: srcLinePre ++ joinCommaSp sources ++
  '\n' :: autoLine ++ '\n' :: '\n' :: content ++ ['\n']

/-- Parsing of a source line: `[s.strip() for s in line[10:].split(',')]` -/
def parseSourcesLine (line : Str) : List Str :=
  (splitComma (line.drop 10)).map pyStrip

def findSourcesLine (ls : List Str) : Option Str :=
  ls.find? (fun l => startsWith l srcTag)

/-- Replace the first `# Sources:` line (the rewrite loop with `break`). -/
def replaceSourcesLine (ls : List Str) (newLine : Str) : List Str :=
  match ls with
  | [] => []
  | l :: rest =>
    if startsWith l srcTag then newLine :: rest else l :: replaceSourcesLine rest newLine

/-- Python string `<` (lexicographic on code points). -/
def strLt : Str → Str → Bool
  | [], [] => false
  | [], _ :: _ => true
  | _ :: _, [] => false
  | a :: as, b :: bs => a < b || (a == b && strLt as bs)

def insertSorted (x : Str) : List Str → List Str
  | [] => [x]
  | y :: ys => if strLt x y then x :: y :: ys else y :: insertSorted x ys

/-- Python `sorted(l)` (on a duplicate-free list this is the unique ascending
enumeration, so it also models `sorted(set(...))`). -/
def sortStrs (l : List Str) : List Str := l.foldr insertSorted []

/-- Python `list(set(l))` up to order: a duplicate-free enumeration of the
elements of `l` (the order is normalized by `sortStrs` before any use, as in
the script, so only the underlying set matters). -/
def dedupStrs : List Str → List Str
  | [] => []
  | x :: xs => x :: (dedupStrs xs).filter (fun y => !(y == x))

/-- The update branch of `save_hashed_snippet`: parse the existing source
list, union with the new sources, sort, and rewrite the source line. -/
def updateExisting (existing : Str) (sources : List Str) : Str :=
  let existingSources :=
    match findSourcesLine (splitNl existing) with
    | some line => parseSourcesLine line
    | none => []
  let allSources := dedupStrs (existingSources ++ sources)
  let newLine := srcLinePre ++ joinCommaSp (sortStrs allSources)
  joinNl (replaceSourcesLine (splitNl existing) newLine)

/-- The content-addressed store: short hash ↦ file text. -/
def lookupStore (store : List (Str × Str)) (k : Str) : Option Str :=
  (store.find? (fun p => p.1 == k)).map (fun p => p.2)

def storeSet (store : List (Str × Str)) (k v : Str) : List (Str × Str) :=
  store.map (fun p => if p.1 == k then (k, v) else p)

/-- The function `save_hashed_snippet`: returns the new store and the short hash. -/
def save_hashed_snippet (store : List (Str × Str)) (content : Str) (sources : List Str) :
    List (Str × Str) × Str :=
  let contentHash := compute_content_hash content
  let shortHash := contentHash.take 16
  match lookupStore store shortHash with
  | none => ((shortHash, initialFile contentHash sources content) :: store, shortHash)
  | some existing => (storeSet store shortHash (updateExisting existing sources), shortHash)

/-- The source set recorded in the stored entry for a key. -/
def storedSources (store : List (Str × Str)) (k : Str) : List Str :=
  match lookupStore store k with
  | some file =>
    match findSourcesLine (splitNl file) with
    | some line => parseSourcesLine line
    | none => []
  | none => []

/-! ## download_cargo_toml -/

/-- Outcome of one HTTP GET: content, an `HTTPError` with a code, or any
other exception (`URLError`, timeout, ...). -/
inductive FetchRes where
  | ok (content : Str)
  | httpErr (code : Nat)
  | exc
deriving DecidableEq

def altBranch (branch : Str) : Str :=
  if branch = ("main").toList then ("master").toList else ("main").toList

/-- The function `download_cargo_toml` over a network oracle mapping a branch name to the
outcome of fetching that branch's Cargo.toml.  The first component is
`Except.error ()` when an exception propagates to the caller, otherwise
`Except.ok` of the returned value; the second component lists the branches
requested. -/
def download_cargo_toml (net : Str → FetchRes) (branch : Str) :
    Except Unit (Option Str) × List Str :=
  match net branch with
  | .ok c => (.ok (some c), [branch])
  | .httpErr code =>
    if code = 404 then
      match net (altBranch branch) with
      | .ok c => (.ok (some c), [branch, altBranch branch])
      | .httpErr _ => (.ok none, [branch, altBranch branch])
      | .exc => (.error (), [branch, altBranch branch])
    else (.ok none, [branch])
  | .exc => (.ok none, [branch])

/-! ## Reference definitions used to state the claims -/

/-- The clamped bracket-depth counter of the specification: opens minus
closes accumulated per line, clamped at zero. -/
def depthStep (d : Int) (l : Str) : Int :=
  max 0 (d + (openCount l : Int) - (closeCount l : Int))

def depthList (ls : List Str) : Int := ls.foldl depthStep 0

/-- Unfiltered reference grouper: like `groupStep` but keeps every closed
group (as its list of lines), with no retention test. -/
structure RawState where
  groups : List (List Str)
  current : List Str
  inMulti : Bool
  bracket : Int
deriving DecidableEq

def rawStep (st : RawState) (line : Str) : RawState :=
  let u := bracketUpd st.inMulti st.bracket line
  if (pyStrip line).isEmpty && !u.1 then
    if !st.current.isEmpty then ⟨st.groups ++ [st.current], [], u.1, u.2⟩
    else ⟨st.groups, st.current, u.1, u.2⟩
  else ⟨st.groups, st.current ++ [line], u.1, u.2⟩

def initRS : RawState := ⟨[], [], false, 0⟩

def rawScan (ls : List Str) : RawState := ls.foldl rawStep initRS

/-- All closed groups of a line buffer, including the final in-progress one. -/
def closedGroups (ls : List Str) : List (List Str) :=
  let st := rawScan ls
  st.groups ++ (if !st.current.isEmpty then [st.current] else [])

def isHexChar (c : Char) : Bool := (("0123456789abcdef").toList).contains c

/-- Well-formedness of a source identifier as used by the script
(`repo/section/groupNN`): no newline, no comma, no surrounding whitespace. -/
def goodSource (s : Str) : Prop :=
  ('\n' ∉ s) ∧ (',' ∉ s) ∧ pyStrip s = s

instance (s : Str) : Decidable (goodSource s) := by
  unfold goodSource
  infer_instance

/-! ## Lemmas: splitting and joining -/

theorem splitOnChar_nil (sep : Char) : splitOnChar sep [] = [[]] := rfl

theorem splitOnChar_cons (sep c : Char) (cs : Str) :
    splitOnChar sep (c :: cs) =
      if c == sep then [] :: splitOnChar sep cs
      else (c :: (splitOnChar sep cs).headD []) :: (splitOnChar sep cs).tail := rfl

theorem splitOnChar_ne_nil (sep : Char) (s : Str) : splitOnChar sep s ≠ [] := by
  cases s with
  | nil => simp [splitOnChar]
  | cons c cs =>
    rw [splitOnChar_cons]
    split <;> simp

theorem splitOnChar_no_sep (sep : Char) (s : Str) (h : sep ∉ s) :
    splitOnChar sep s = [s] := by
  induction s with
  | nil => rfl
  | cons c cs ih =>
    have hc : ¬(c == sep) = true := by
      simp only [beq_iff_eq]
      intro hh
      exact h (hh ▸ List.mem_cons_self c cs)
    have hcs : sep ∉ cs := fun hm => h (List.mem_cons_of_mem c hm)
    rw [splitOnChar_cons, if_neg hc, ih hcs]
    rfl

theorem splitOnChar_append_sep (sep : Char) (a b : Str) :
    splitOnChar sep (a ++ sep :: b) = splitOnChar sep a ++ splitOnChar sep b := by
  induction a with
  | nil => simp [splitOnChar_cons, splitOnChar_nil]
  | cons c cs ih =>
    by_cases hc : c = sep
    · subst hc
      simp only [List.cons_append, splitOnChar_cons, beq_self_eq_true, if_pos, ih]
    · obtain ⟨x, xt, hx⟩ := List.exists_cons_of_ne_nil (splitOnChar_ne_nil sep cs)
      simp only [List.cons_append, splitOnChar_cons, ih, hx]
      simp [hc]

theorem joinOnChar_cons (sep : Char) (l : Str) (ls : List Str) (h : ls ≠ []) :
    joinOnChar sep (l :: ls) = l ++ sep :: joinOnChar sep ls := by
  cases ls with
  | nil => exact absurd rfl h
  | cons x xt => rfl

theorem joinOnChar_splitOnChar (sep : Char) (s : Str) :
    joinOnChar sep (splitOnChar sep s) = s := by
  induction s with
  | nil => rfl
  | cons c cs ih =>
    rw [splitOnChar_cons]
    by_cases hc : c = sep
    · rw [if_pos (by simp [hc]), joinOnChar_cons sep _ _ (splitOnChar_ne_nil sep cs), ih, hc]
      rfl
    · rw [if_neg (by simp [hc])]
      obtain ⟨x, xt, hx⟩ := List.exists_cons_of_ne_nil (splitOnChar_ne_nil sep cs)
      rw [hx] at ih ⊢
      cases xt with
      | nil => simpa [joinOnChar] using congrArg (c :: ·) ih
      | cons y yt =>
        rw [joinOnChar_cons sep _ _ (by simp)] at ih
        simp only [List.headD_cons, List.tail_cons]
        rw [joinOnChar_cons sep _ _ (by simp)]
        simpa using congrArg (c :: ·) ih

theorem splitOnChar_joinOnChar (sep : Char) (L : List Str) (hL : L ≠ [])
    (h : ∀ l ∈ L, sep ∉ l) : splitOnChar sep (joinOnChar sep L) = L := by
  induction L with
  | nil => exact absurd rfl hL
  | cons l ls ih =>
    cases ls with
    | nil => exact splitOnChar_no_sep sep l (h l (by simp))
    | cons x xt =>
      have hrest : ∀ m ∈ x :: xt, sep ∉ m := fun m hm => h m (List.mem_cons_of_mem l hm)
      rw [joinOnChar_cons sep _ _ (by simp), splitOnChar_append_sep,
        splitOnChar_no_sep sep l (h l (by simp)), ih (by simp) hrest]
      rfl

theorem mem_splitOnChar_not_sep (sep : Char) (s : Str) (l : Str)
    (h : l ∈ splitOnChar sep s) : sep ∉ l := by
  induction s generalizing l with
  | nil =>
    simp only [splitOnChar_nil, List.mem_singleton] at h
    subst h; simp
  | cons c cs ih =>
    rw [splitOnChar_cons] at h
    by_cases hc : c = sep
    · rw [if_pos (by simp [hc])] at h
      rcases List.mem_cons.mp h with h1 | h2
      · subst h1; simp
      · exact ih l h2
    · rw [if_neg (by simp [hc])] at h
      obtain ⟨x, xt, hx⟩ := List.exists_cons_of_ne_nil (splitOnChar_ne_nil sep cs)
      rw [hx] at h
      simp only [List.headD_cons, List.tail_cons] at h
      rcases List.mem_cons.mp h with h1 | h2
      · subst h1
        intro hm
        rcases List.mem_cons.mp hm with h3 | h4
        · exact hc h3.symm
        · exact ih x (hx ▸ List.mem_cons_self x xt) h4
      · exact ih l (hx ▸ List.mem_cons_of_mem x h2)

theorem splitOnChar_append_last (sep c : Char) (x : Str) (hc : c ≠ sep) :
    splitOnChar sep (x ++ [c]) =
      (splitOnChar sep x).dropLast ++ [((splitOnChar sep x).getLastD []) ++ [c]] := by
  induction x with
  | nil => simp [splitOnChar_cons, splitOnChar_nil, hc]
  | cons d ds ih =>
    by_cases hd : d = sep
    · obtain ⟨y, yt, hy⟩ := List.exists_cons_of_ne_nil (splitOnChar_ne_nil sep (ds ++ [c]))
      simp only [List.cons_append, splitOnChar_cons, ih, hy]
      obtain ⟨z, zt, hz⟩ := List.exists_cons_of_ne_nil (splitOnChar_ne_nil sep ds)
      rw [hz] at ih ⊢
      simp only [hd, beq_self_eq_true, if_pos]
      rw [hy] at ih
      simp [ih]
    · obtain ⟨z, zt, hz⟩ := List.exists_cons_of_ne_nil (splitOnChar_ne_nil sep ds)
      simp only [List.cons_append, splitOnChar_cons, ih, hz]
      have hd' : (d == sep) = false := by simp [hd]
      rw [hd']
      simp only [Bool.false_eq_true, if_false]
      cases zt with
      | nil => simp
      | cons w wt => simp

theorem joinOnChar_append_last (sep : Char) (X : List Str) (l : Str) (hX : X ≠ []) :
    joinOnChar sep (X ++ [l]) = joinOnChar sep X ++ sep :: l := by
  induction X with
  | nil => exact absurd rfl hX
  | cons x xt ih =>
    cases xt with
    | nil => simp [joinOnChar]
    | cons y yt =>
      rw [List.cons_append, joinOnChar_cons sep _ _ (by simp),
        joinOnChar_cons sep _ _ (by simp), ih (by simp)]
      simp

/-! ## Lemmas: whitespace stripping -/

theorem dropLeadingSpace_cons (c : Char) (cs : Str) :
    dropLeadingSpace (c :: cs) = if isPySpace c then dropLeadingSpace cs else c :: cs := rfl

theorem dropLeadingSpace_append (a b : Str) :
    dropLeadingSpace (a ++ b) =
      if dropLeadingSpace a = [] then dropLeadingSpace b else dropLeadingSpace a ++ b := by
  induction a with
  | nil => simp [dropLeadingSpace]
  | cons c cs ih =>
    rw [List.cons_append, dropLeadingSpace_cons, dropLeadingSpace_cons]
    by_cases hc : isPySpace c = true
    · rw [if_pos hc, if_pos hc]
      exact ih
    · rw [if_neg hc, if_neg hc]
      simp

theorem dropLeadingSpace_eq_nil_iff (s : Str) :
    dropLeadingSpace s = [] ↔ ∀ c ∈ s, isPySpace c = true := by
  induction s with
  | nil => simp [dropLeadingSpace]
  | cons c cs ih =>
    by_cases hc : isPySpace c = true
    · simp [dropLeadingSpace_cons, hc, ih]
    · simp [dropLeadingSpace_cons, hc]

theorem dropLeadingSpace_ws_append (w x : Str) (hw : ∀ c ∈ w, isPySpace c = true) :
    dropLeadingSpace (w ++ x) = dropLeadingSpace x := by
  rw [dropLeadingSpace_append, if_pos ((dropLeadingSpace_eq_nil_iff w).mpr hw)]

theorem pyStrip_ws_right (x w : Str) (hw : ∀ c ∈ w, isPySpace c = true) :
    pyStrip (x ++ w) = pyStrip x := by
  unfold pyStrip
  rw [List.reverse_append, dropLeadingSpace_ws_append w.reverse x.reverse
    (fun c hc => hw c (List.mem_reverse.mp hc))]

theorem pyStrip_ws_left (w x : Str) (hw : ∀ c ∈ w, isPySpace c = true) :
    pyStrip (w ++ x) = pyStrip x := by
  unfold pyStrip
  rw [List.reverse_append, dropLeadingSpace_append]
  by_cases hx : dropLeadingSpace x.reverse = []
  · have h1 : dropLeadingSpace w.reverse = [] := (dropLeadingSpace_eq_nil_iff _).mpr
      (fun c hc => hw c (List.mem_reverse.mp hc))
    rw [if_pos hx, h1, hx]
  · rw [if_neg hx, List.reverse_append, List.reverse_reverse]
    exact dropLeadingSpace_ws_append w _ hw

theorem pyStrip_nil : pyStrip [] = [] := rfl

theorem exists_ws_decomp (s : Str) :
    ∃ p, (∀ c ∈ p, isPySpace c = true) ∧ s = p ++ dropLeadingSpace s := by
  induction s with
  | nil => exact ⟨[], by simp, rfl⟩
  | cons c cs ih =>
    by_cases hc : isPySpace c = true
    · obtain ⟨p, hp, hs⟩ := ih
      refine ⟨c :: p, ?_, ?_⟩
      · intro d hd
        rcases List.mem_cons.mp hd with h1 | h2
        · exact h1 ▸ hc
        · exact hp d h2
      · rw [dropLeadingSpace_cons, if_pos hc, List.cons_append]
        exact congrArg (c :: ·) hs
    · refine ⟨[], by simp, ?_⟩
      rw [dropLeadingSpace_cons, if_neg hc]
      rfl

theorem pyStrip_eq_nil_iff (s : Str) :
    pyStrip s = [] ↔ ∀ c ∈ s, isPySpace c = true := by
  constructor
  · intro h c hc
    unfold pyStrip at h
    rw [dropLeadingSpace_eq_nil_iff] at h
    have h2 : ∀ d ∈ dropLeadingSpace s.reverse, isPySpace d = true := by
      intro d hd
      exact h d (List.mem_reverse.mpr hd)
    obtain ⟨p, hp, hs⟩ := exists_ws_decomp s.reverse
    have hall : ∀ d ∈ s.reverse, isPySpace d = true := by
      intro d hd
      rw [hs] at hd
      rcases List.mem_append.mp hd with h1 | h2'
      · exact hp d h1
      · exact h2 d h2'
    exact hall c (List.mem_reverse.mpr hc)
  · intro h
    unfold pyStrip
    rw [(dropLeadingSpace_eq_nil_iff s.reverse).mpr (fun c hc => h c (List.mem_reverse.mp hc))]
    rfl

/-! ## Lemmas: bracket depth tracking in the grouper -/

theorem depthStep_nonneg (d : Int) (l : Str) : 0 ≤ depthStep d l := le_max_left 0 _

theorem foldl_depthStep_nonneg (ls : List Str) (d : Int) (h : 0 ≤ d) :
    0 ≤ ls.foldl depthStep d := by
  induction ls generalizing d with
  | nil => exact h
  | cons l ls ih => exact ih _ (depthStep_nonneg d l)

theorem bracketUpd_spec (d : Int) (l : Str) (h0 : 0 ≤ d) :
    bracketUpd (decide (0 < d)) d l = (decide (0 < depthStep d l), depthStep d l) := by
  unfold bracketUpd depthStep
  by_cases hd : 0 < d
  · rw [decide_eq_true hd]
    simp only [Bool.not_true, Bool.false_eq_true, if_false]
    split_ifs with hb
    · have hmx : max 0 (d + (openCount l : Int) - (closeCount l : Int)) = 0 := by omega
      rw [hmx]
      rfl
    · have hmx : max 0 (d + (openCount l : Int) - (closeCount l : Int)) =
          d + (openCount l : Int) - (closeCount l : Int) := by omega
      rw [hmx, decide_eq_true (show (0:Int) <
        d + (openCount l : Int) - (closeCount l : Int) by omega)]
  · have hd0 : d = 0 := by omega
    subst hd0
    rw [decide_eq_false hd]
    simp only [Bool.not_false, if_true]
    split_ifs with hb
    · have hmx : max 0 (0 + (openCount l : Int) - (closeCount l : Int)) =
          (openCount l : Int) - (closeCount l : Int) := by omega
      rw [hmx, decide_eq_true (show (0:Int) <
        (openCount l : Int) - (closeCount l : Int) by omega)]
    · have hmx : max 0 (0 + (openCount l : Int) - (closeCount l : Int)) = 0 := by omega
      rw [hmx]
      rfl

theorem groupStep_fields (st : GroupState) (l : Str) :
    (groupStep st l).inMulti = (bracketUpd st.inMulti st.bracket l).1 ∧
    (groupStep st l).bracket = (bracketUpd st.inMulti st.bracket l).2 := by
  simp only [groupStep]
  split_ifs <;> exact ⟨rfl, rfl⟩

theorem rawStep_fields (st : RawState) (l : Str) :
    (rawStep st l).inMulti = (bracketUpd st.inMulti st.bracket l).1 ∧
    (rawStep st l).bracket = (bracketUpd st.inMulti st.bracket l).2 := by
  simp only [rawStep]
  split_ifs <;> exact ⟨rfl, rfl⟩

theorem groupScan_bracket_aux (ls : List Str) (st : GroupState)
    (h0 : 0 ≤ st.bracket) (hm : st.inMulti = decide (0 < st.bracket)) :
    (ls.foldl groupStep st).bracket = ls.foldl depthStep st.bracket ∧
    (ls.foldl groupStep st).inMulti = decide (0 < ls.foldl depthStep st.bracket) := by
  induction ls generalizing st with
  | nil => exact ⟨rfl, hm⟩
  | cons l ls ih =>
    simp only [List.foldl_cons]
    have hf := groupStep_fields st l
    have hbu : bracketUpd st.inMulti st.bracket l =
        (decide (0 < depthStep st.bracket l), depthStep st.bracket l) := by
      rw [hm]
      exact bracketUpd_spec st.bracket l h0
    have h1 : (groupStep st l).bracket = depthStep st.bracket l := by rw [hf.2, hbu]
    have h2 : (groupStep st l).inMulti = decide (0 < (groupStep st l).bracket) := by
      rw [hf.1, hbu, h1]
    have h3 := ih (groupStep st l) (h1 ▸ depthStep_nonneg _ _) h2
    rw [h1] at h3
    exact h3

theorem groupScan_bracket (ls : List Str) :
    (groupScan ls).bracket = depthList ls ∧
    (groupScan ls).inMulti = decide (0 < depthList ls) :=
  groupScan_bracket_aux ls initGS (by norm_num [initGS]) (by rfl)

theorem blank_no_brackets (l : Str) (h : pyStrip l = []) :
    openCount l = 0 ∧ closeCount l = 0 := by
  have hws := (pyStrip_eq_nil_iff l).mp h
  have hcc : ∀ b : Char, isPySpace b = false → countChar b l = 0 := by
    intro b hb
    unfold countChar
    rw [List.filter_eq_nil_iff.mpr]
    · rfl
    · intro x hx
      simp only [beq_iff_eq]
      intro hxb
      have hxs := hws x hx
      rw [hxb, hb] at hxs
      simp at hxs
  unfold openCount closeCount
  rw [hcc '[' (by rfl), hcc ']' (by rfl), hcc '\x7b' (by rfl), hcc '\x7d' (by rfl)]
  exact ⟨rfl, rfl⟩

theorem depthStep_blank (d : Int) (l : Str) (h : pyStrip l = []) (hd : 0 ≤ d) :
    depthStep d l = d := by
  obtain ⟨h1, h2⟩ := blank_no_brackets l h
  unfold depthStep
  rw [h1, h2]
  omega

theorem groupStep_blank_closes (st : GroupState) (b : Str) (hb : pyStrip b = [])
    (hm : (bracketUpd st.inMulti st.bracket b).1 = false) :
    groupStep st b = ⟨st.groups ++ (if st.current ≠ [] ∧ hasDeps st.current = true
      then [joinNl st.current] else []), [], false,
      (bracketUpd st.inMulti st.bracket b).2⟩ := by
  by_cases hcur : st.current = []
  · simp only [groupStep, hb, hm]
    simp [hcur]
  · by_cases hdeps : hasDeps st.current = true
    · simp only [groupStep, hb, hm]
      simp [hcur, hdeps]
    · simp only [groupStep, hb, hm]
      simp [hcur, hdeps]

theorem groupStep_appends (st : GroupState) (l : Str)
    (h : ((pyStrip l).isEmpty && !(bracketUpd st.inMulti st.bracket l).1) = false) :
    groupStep st l = ⟨st.groups, st.current ++ [l], (bracketUpd st.inMulti st.bracket l).1,
      (bracketUpd st.inMulti st.bracket l).2⟩ := by
  simp only [groupStep, h]
  simp

theorem groupScan_append_one (ls : List Str) (l : Str) :
    groupScan (ls ++ [l]) = groupStep (groupScan ls) l := by
  unfold groupScan
  rw [List.foldl_append]
  rfl

theorem depthList_append_one (ls : List Str) (l : Str) :
    depthList (ls ++ [l]) = depthStep (depthList ls) l := by
  unfold depthList
  rw [List.foldl_append]
  rfl

theorem scan_blank_at_zero (ls : List Str) (b : Str) (hb : pyStrip b = [])
    (hd : depthList ls = 0) :
    (groupScan (ls ++ [b])).current = [] ∧
    (groupScan (ls ++ [b])).groups = (groupScan ls).groups ++
      (if (groupScan ls).current ≠ [] ∧ hasDeps (groupScan ls).current = true
       then [joinNl ((groupScan ls).current)] else []) := by
  have hsc := groupScan_bracket ls
  have hm : (groupScan ls).inMulti = false := by
    rw [hsc.2, hd]
    rfl
  have hbr : (groupScan ls).bracket = 0 := by rw [hsc.1, hd]
  have hu : (bracketUpd (groupScan ls).inMulti (groupScan ls).bracket b).1 = false := by
    rw [hm, hbr, show (false : Bool) = decide ((0:Int) < 0) from rfl,
      bracketUpd_spec 0 b (le_refl 0), depthStep_blank 0 b hb (le_refl 0)]
  rw [groupScan_append_one, groupStep_blank_closes (groupScan ls) b hb hu]
  exact ⟨rfl, rfl⟩

/-! ## Claim C3 -/

/-- C3: the grouper never splits a group at a blank line that occurs while the
bracket-depth counter (opens minus closes of the four bracket characters,
accumulated per line and clamped at zero) is greater than zero — the blank
line is appended to the current group and the groups are unchanged; and a
line whose brackets all close on the same line they open leaves the depth at
zero, so a following blank line at depth zero ends the current group. -/
theorem claim_C3 (ls : List Str) (l b : Str) :
    (pyStrip l = [] → 0 < depthList (ls ++ [l]) →
      (groupScan (ls ++ [l])).groups = (groupScan ls).groups ∧
      (groupScan (ls ++ [l])).current = (groupScan ls).current ++ [l]) ∧
    (depthList ls = 0 → openCount l = closeCount l →
      depthList (ls ++ [l]) = 0 ∧
      (pyStrip b = [] →
        (groupScan (ls ++ [l, b])).current = [] ∧
        (groupScan (ls ++ [l, b])).groups = (groupScan (ls ++ [l])).groups ++
          (if (groupScan (ls ++ [l])).current ≠ [] ∧
              hasDeps (groupScan (ls ++ [l])).current = true
           then [joinNl ((groupScan (ls ++ [l])).current)] else []))) := by
  constructor
  · intro hblank hpos
    have hd0 : 0 ≤ depthList ls := foldl_depthStep_nonneg ls 0 (le_refl 0)
    rw [depthList_append_one, depthStep_blank _ _ hblank hd0] at hpos
    have hsc := groupScan_bracket ls
    have hm : (groupScan ls).inMulti = true := by
      rw [hsc.2]
      exact decide_eq_true hpos
    have hu : (bracketUpd (groupScan ls).inMulti (groupScan ls).bracket l).1 = true := by
      rw [hm, hsc.1, show (true : Bool) = decide (0 < depthList ls) from
        (decide_eq_true hpos).symm, bracketUpd_spec _ _ hd0,
        depthStep_blank _ _ hblank hd0]
    have hcond : ((pyStrip l).isEmpty && !(bracketUpd (groupScan ls).inMulti
        (groupScan ls).bracket l).1) = false := by
      rw [hu]
      simp
    rw [groupScan_append_one, groupStep_appends (groupScan ls) l hcond]
    exact ⟨rfl, rfl⟩
  · intro hd heq
    have hstep : depthList (ls ++ [l]) = 0 := by
      rw [depthList_append_one, hd]
      unfold depthStep
      omega
    refine ⟨hstep, fun hb => ?_⟩
    have h2 : ls ++ [l, b] = (ls ++ [l]) ++ [b] := by simp
    rw [h2]
    exact scan_blank_at_zero (ls ++ [l]) b hb hstep

theorem claim_C3_witness :
    (pyStrip ([' '] : Str) = [] ∧ 0 < depthList ([("bar = [").toList] ++ [[' ']]) ∧
      (groupScan ([("bar = [").toList] ++ [[' ']])).groups =
        (groupScan [("bar = [").toList]).groups ∧
      (groupScan ([("bar = [").toList] ++ [[' ']])).current =
        (groupScan [("bar = [").toList]).current ++ [[' ']]) ∧
    (depthList [("a = 1").toList] = 0 ∧ openCount (("x = [1]").toList) =
        closeCount (("x = [1]").toList) ∧
      depthList ([("a = 1").toList] ++ [("x = [1]").toList]) = 0 ∧
      (groupScan ([("a = 1").toList] ++ [("x = [1]").toList, []])).current = []) := by
  refine ⟨⟨by decide, by decide, ?_⟩, ⟨by decide, by decide, ?_, ?_⟩⟩
  · exact (claim_C3 [("bar = [").toList] [' '] []).1 (by decide) (by decide)
  · exact ((claim_C3 [("a = 1").toList] (("x = [1]").toList) []).2 (by decide) (by decide)).1
  · exact (((claim_C3 [("a = 1").toList] (("x = [1]").toList) []).2 (by decide)
      (by decide)).2 (by decide)).1

/-! ## Claim C6 -/

/-- C6: the grouper's bracket-depth state is never negative — excess closing
brackets clamp it to zero (the stored counter always equals the clamped
per-line accumulation) — so a subsequent blank line at depth zero still ends
the current group; blank-line splitting is never permanently disabled. -/
theorem claim_C6 (ls : List Str) (b : Str) :
    0 ≤ (groupScan ls).bracket ∧
    (groupScan ls).bracket = depthList ls ∧
    (pyStrip b = [] → depthList ls = 0 →
      (groupScan (ls ++ [b])).current = [] ∧
      (groupScan (ls ++ [b])).groups = (groupScan ls).groups ++
        (if (groupScan ls).current ≠ [] ∧ hasDeps (groupScan ls).current = true
         then [joinNl ((groupScan ls).current)] else [])) := by
  refine ⟨?_, (groupScan_bracket ls).1, fun hb hd => scan_blank_at_zero ls b hb hd⟩
  rw [(groupScan_bracket ls).1]
  exact foldl_depthStep_nonneg ls 0 (le_refl 0)

theorem claim_C6_witness :
    (pyStrip ([] : Str) = [] ∧ depthList [("]]] \x7d").toList, ("a = 1").toList] = 0) ∧
    0 ≤ (groupScan [("]]] \x7d").toList, ("a = 1").toList]).bracket ∧
    (groupScan ([("]]] \x7d").toList, ("a = 1").toList] ++ [[]])).current = [] := by
  refine ⟨⟨by decide, by decide⟩, (claim_C6 [("]]] \x7d").toList, ("a = 1").toList] []).1, ?_⟩
  exact ((claim_C6 [("]]] \x7d").toList, ("a = 1").toList] []).2.2 (by decide) (by decide)).1

/-! ## Claim C2 -/

/-- C2: on the spec's example section content, the grouper returns exactly two
retained groups — the first containing the `foo` and `bar` lines with the
embedded blank lines preserved inside, the second containing the `baz` line. -/
theorem claim_C2 :
    split_by_blank_lines
      (("foo = \"1.0\"\nbar = \x7b version = \"2.0\", features = [\n\n\"x\", \"y\"\n\n] \x7d\n\nbaz = \"3.0\"").toList) =
    [("foo = \"1.0\"\nbar = \x7b version = \"2.0\", features = [\n\n\"x\", \"y\"\n\n] \x7d").toList,
     ("baz = \"3.0\"").toList] := by decide

/-! ## Claim C7 (corrected) -/

/-- C7 counterexample: in the buffer `a = 1` / blank / `[x]` / `b = 2` the
header line is not at the start; the claim predicts the buffer is processed
from the beginning, so a group containing `a = 1` would be retained.  The
code instead skips up to and including the first header line anywhere, so
the only group is `b = 2` and the non-header line `a = 1` preceding the
first group is dropped. -/
theorem claim_C7_counterexample :
    split_by_blank_lines (("a = 1\n\n[x]\nb = 2").toList) = [("b = 2").toList] ∧
    ¬ ∃ g ∈ split_by_blank_lines (("a = 1\n\n[x]\nb = 2").toList),
        ("a = 1").toList ∈ splitNl g := by decide

theorem findIdx?_first_true (p : Str → Bool) (pre : List Str) (hdr : Str)
    (rest : List Str) (hpre : ∀ l ∈ pre, p l = false) (hp : p hdr = true) :
    List.findIdx? p (pre ++ hdr :: rest) = some pre.length := by
  induction pre with
  | nil =>
    rw [List.nil_append, List.findIdx?_cons, if_pos hp]
    rfl
  | cons a t ih =>
    rw [List.cons_append, List.findIdx?_cons, if_neg (by simp [hpre a (by simp)]),
      List.findIdx?_succ, ih (fun l hl => hpre l (List.mem_cons_of_mem a hl))]
    rfl

theorem startIdx_first_header (pre : List Str) (hdr : Str) (rest : List Str)
    (hpre : ∀ l ∈ pre, isHeaderLine l = false) (hhdr : isHeaderLine hdr = true) :
    startIdx (pre ++ hdr :: rest) = pre.length + 1 := by
  unfold startIdx
  rw [findIdx?_first_true (fun l => isHeaderLine l) pre hdr rest hpre hhdr]

/-- C7 (amended): the grouper skips every line up to and including the first
line of the buffer matching the bracketed-header pattern, wherever that
header occurs — so all (non-header) lines preceding it are dropped — and
processes exactly the lines after it; when no line matches the pattern, the
buffer is processed from the beginning (then no line preceding the first
group is dropped). -/
theorem claim_C7 (content : Str) (pre : List Str) (hdr : Str) (rest : List Str) :
    (splitNl content = pre ++ hdr :: rest → (∀ l ∈ pre, isHeaderLine l = false) →
      isHeaderLine hdr = true →
      split_by_blank_lines content = runGroups rest) ∧
    ((∀ l ∈ splitNl content, isHeaderLine l = false) →
      split_by_blank_lines content = runGroups (splitNl content)) := by
  constructor
  · intro hsplit hpre hhdr
    show runGroups ((splitNl content).drop (startIdx (splitNl content))) = runGroups rest
    rw [hsplit, startIdx_first_header pre hdr rest hpre hhdr,
      show pre ++ hdr :: rest = (pre ++ [hdr]) ++ rest by simp,
      show pre.length + 1 = (pre ++ [hdr]).length by simp,
      List.drop_left]
  · intro hall
    show runGroups ((splitNl content).drop (startIdx (splitNl content))) =
      runGroups (splitNl content)
    have h1 : startIdx (splitNl content) = 0 := by
      unfold startIdx
      rw [List.findIdx?_eq_none_iff.mpr (fun x hx => by simp [hall x hx])]
    rw [h1]
    rfl

theorem claim_C7_witness :
    (splitNl (("a = 1\n\n[x]\nb = 2").toList) =
        [("a = 1").toList, []] ++ ("[x]").toList :: [("b = 2").toList] ∧
      (∀ l ∈ [("a = 1").toList, ([] : Str)], isHeaderLine l = false) ∧
      isHeaderLine (("[x]").toList) = true ∧
      split_by_blank_lines (("a = 1\n\n[x]\nb = 2").toList) =
        runGroups [("b = 2").toList]) ∧
    ((∀ l ∈ splitNl (("x = 1\ny = 2").toList), isHeaderLine l = false) ∧
      split_by_blank_lines (("x = 1\ny = 2").toList) =
        runGroups (splitNl (("x = 1\ny = 2").toList))) := by
  refine ⟨⟨by decide, by decide, by decide, ?_⟩, ⟨by decide, ?_⟩⟩
  · exact (claim_C7 (("a = 1\n\n[x]\nb = 2").toList) [("a = 1").toList, []]
      (("[x]").toList) [("b = 2").toList]).1 (by decide) (by decide) (by decide)
  · exact (claim_C7 (("x = 1\ny = 2").toList) [] [] []).2 (by decide)

/-! ## Claim C4: retention filter -/

theorem step_sim (l : Str) (gst : GroupState) (rst : RawState)
    (hg : gst.groups = (rst.groups.filter (fun g => hasDeps g)).map joinNl)
    (hc : gst.current = rst.current) (hm : gst.inMulti = rst.inMulti)
    (hb : gst.bracket = rst.bracket) :
    (groupStep gst l).groups =
      (((rawStep rst l).groups).filter (fun g => hasDeps g)).map joinNl ∧
    (groupStep gst l).current = (rawStep rst l).current ∧
    (groupStep gst l).inMulti = (rawStep rst l).inMulti ∧
    (groupStep gst l).bracket = (rawStep rst l).bracket := by
  have hu : bracketUpd gst.inMulti gst.bracket l = bracketUpd rst.inMulti rst.bracket l := by
    rw [hm, hb]
  by_cases hcond : ((pyStrip l).isEmpty && !(bracketUpd rst.inMulti rst.bracket l).1) = true
  · by_cases hcur : rst.current.isEmpty = true
    · simp only [groupStep, rawStep, hu, hcond, if_pos, hc, hcur, Bool.not_true,
        Bool.false_eq_true, if_false]
      exact ⟨hg, trivial, trivial, trivial⟩
    · have hcur' : (!rst.current.isEmpty) = true := by simp [hcur]
      by_cases hdeps : hasDeps rst.current = true
      · simp only [groupStep, rawStep, hu, hcond, if_pos, hc, hcur', if_true, hdeps,
          List.filter_append, List.map_append]
        refine ⟨?_, trivial, trivial, trivial⟩
        rw [hg]
        simp [hdeps]
      · simp only [groupStep, rawStep, hu, hcond, if_pos, hc, hcur', if_true, hdeps,
          Bool.false_eq_true, if_false, List.filter_append, List.map_append]
        refine ⟨?_, trivial, trivial, trivial⟩
        rw [hg]
        simp [hdeps]
  · have hcond' : ((pyStrip l).isEmpty && !(bracketUpd rst.inMulti rst.bracket l).1) = false := by
      rw [Bool.not_eq_true] at hcond
      exact hcond
    simp only [groupStep, rawStep, hu, hcond', Bool.false_eq_true, if_false, hc]
    exact ⟨hg, trivial, trivial, trivial⟩

theorem scan_sim (ls : List Str) (gst : GroupState) (rst : RawState)
    (hg : gst.groups = (rst.groups.filter (fun g => hasDeps g)).map joinNl)
    (hc : gst.current = rst.current) (hm : gst.inMulti = rst.inMulti)
    (hb : gst.bracket = rst.bracket) :
    (ls.foldl groupStep gst).groups =
      (((ls.foldl rawStep rst).groups).filter (fun g => hasDeps g)).map joinNl ∧
    (ls.foldl groupStep gst).current = (ls.foldl rawStep rst).current := by
  induction ls generalizing gst rst with
  | nil => exact ⟨hg, hc⟩
  | cons l ls ih =>
    obtain ⟨h1, h2, h3, h4⟩ := step_sim l gst rst hg hc hm hb
    exact ih (groupStep gst l) (rawStep rst l) h1 h2 h3 h4

theorem rawStep_cases (st : RawState) (l : Str) :
    ((rawStep st l).groups = st.groups ∧ (rawStep st l).current = st.current ++ [l]) ∨
    ((rawStep st l).groups = st.groups ++ [st.current] ∧ st.current ≠ [] ∧
      (rawStep st l).current = []) ∨
    ((rawStep st l).groups = st.groups ∧ (rawStep st l).current = st.current) := by
  simp only [rawStep]
  split_ifs with h1 h2
  · right; left
    refine ⟨rfl, ?_, rfl⟩
    intro hnil
    rw [hnil] at h2
    simp at h2
  · right; right
    exact ⟨rfl, rfl⟩
  · left
    exact ⟨rfl, rfl⟩

theorem rawScan_state_pred (P : Str → Prop) (ls : List Str) (rst : RawState)
    (hg : ∀ g ∈ rst.groups, ∀ l ∈ g, P l) (hc : ∀ l ∈ rst.current, P l)
    (hin : ∀ l ∈ ls, P l) :
    (∀ g ∈ (ls.foldl rawStep rst).groups, ∀ l ∈ g, P l) ∧
    (∀ l ∈ (ls.foldl rawStep rst).current, P l) := by
  induction ls generalizing rst with
  | nil => exact ⟨hg, hc⟩
  | cons l ls ih =>
    have hl : P l := hin l (by simp)
    have hin' : ∀ x ∈ ls, P x := fun x hx => hin x (List.mem_cons_of_mem l hx)
    refine ih (rawStep rst l) ?_ ?_ hin'
    · intro g hgm x hx
      rcases rawStep_cases rst l with ⟨h1, _⟩ | ⟨h1, _, _⟩ | ⟨h1, _⟩
      · exact hg g (h1 ▸ hgm) x hx
      · rw [h1] at hgm
        rcases List.mem_append.mp hgm with h3 | h3
        · exact hg g h3 x hx
        · rw [List.mem_singleton] at h3
          exact hc x (h3 ▸ hx)
      · exact hg g (h1 ▸ hgm) x hx
    · intro x hx
      rcases rawStep_cases rst l with ⟨_, h2⟩ | ⟨_, _, h2⟩ | ⟨_, h2⟩
      · rw [h2] at hx
        rcases List.mem_append.mp hx with h3 | h3
        · exact hc x h3
        · rw [List.mem_singleton] at h3
          exact h3 ▸ hl
      · rw [h2] at hx
        simp at hx
      · exact hc x (h2 ▸ hx)

theorem rawScan_groups_ne_nil (ls : List Str) (rst : RawState)
    (hg : ∀ g ∈ rst.groups, g ≠ []) :
    ∀ g ∈ (ls.foldl rawStep rst).groups, g ≠ [] := by
  induction ls generalizing rst with
  | nil => exact hg
  | cons l ls ih =>
    refine ih (rawStep rst l) ?_
    intro g hgm
    rcases rawStep_cases rst l with ⟨h1, _⟩ | ⟨h1, hne, _⟩ | ⟨h1, _⟩
    · exact hg g (h1 ▸ hgm)
    · rw [h1] at hgm
      rcases List.mem_append.mp hgm with h3 | h3
      · exact hg g h3
      · rw [List.mem_singleton] at h3
        exact h3 ▸ hne
    · exact hg g (h1 ▸ hgm)

theorem runGroups_eq_filter (ls : List Str) :
    runGroups ls = ((closedGroups ls).filter (fun g => hasDeps g)).map joinNl := by
  have hsim : (groupScan ls).groups =
      (((rawScan ls).groups).filter (fun g => hasDeps g)).map joinNl ∧
      (groupScan ls).current = (rawScan ls).current :=
    scan_sim ls initGS initRS rfl rfl rfl rfl
  show (groupScan ls).groups ++
      (if !(groupScan ls).current.isEmpty && hasDeps (groupScan ls).current
        then [joinNl (groupScan ls).current] else []) =
    (((rawScan ls).groups ++
      (if !(rawScan ls).current.isEmpty then [(rawScan ls).current] else [])).filter
        (fun g => hasDeps g)).map joinNl
  rw [List.filter_append, List.map_append, hsim.1, hsim.2]
  congr 1
  by_cases hcur : (rawScan ls).current.isEmpty = true
  · simp [hcur]
  · by_cases hdeps : hasDeps (rawScan ls).current = true
    · simp [hcur, hdeps]
    · simp [hcur, hdeps]

/-- C4: a closed group is in the grouper's output iff it has a line that is
non-blank after trimming, is not a comment, and contains an assignment — the
output is exactly the retained closed groups, joined; in particular every
output group still has such a line (so comment-only or blank-only groups
never appear). -/
theorem claim_C4 (content : Str) :
    split_by_blank_lines content =
      ((closedGroups ((splitNl content).drop (startIdx (splitNl content)))).filter
        (fun g => hasDeps g)).map joinNl ∧
    ∀ g ∈ split_by_blank_lines content, hasDeps (splitNl g) = true := by
  have heq : split_by_blank_lines content =
      runGroups ((splitNl content).drop (startIdx (splitNl content))) := rfl
  constructor
  · rw [heq, runGroups_eq_filter]
  · intro g hgm
    rw [heq, runGroups_eq_filter] at hgm
    obtain ⟨c, hcmem, hgc⟩ := List.mem_map.mp hgm
    have hcf := List.mem_filter.mp hcmem
    have hlines : ∀ l ∈ (splitNl content).drop (startIdx (splitNl content)),
        ('\n' : Char) ∉ l := by
      intro l hl
      exact mem_splitOnChar_not_sep '\n' content l (List.drop_subset _ _ hl)
    have hpred := rawScan_state_pred (fun l => ('\n' : Char) ∉ l)
      ((splitNl content).drop (startIdx (splitNl content))) initRS
      (by intro g hg; simp [initRS] at hg) (by intro l hl; simp [initRS] at hl) hlines
    have hnil := rawScan_groups_ne_nil
      ((splitNl content).drop (startIdx (splitNl content))) initRS
      (by intro g hg; simp [initRS] at hg)
    have hmem : c ∈ (rawScan ((splitNl content).drop (startIdx (splitNl content)))).groups ++
        (if !(rawScan ((splitNl content).drop (startIdx (splitNl content)))).current.isEmpty
          then [(rawScan ((splitNl content).drop (startIdx (splitNl content)))).current]
          else []) := hcf.1
    have hcprops : (∀ l ∈ c, ('\n' : Char) ∉ l) ∧ c ≠ [] := by
      rcases List.mem_append.mp hmem with h | h
      · exact ⟨hpred.1 c h, hnil c h⟩
      · by_cases hc : (rawScan ((splitNl content).drop
            (startIdx (splitNl content)))).current.isEmpty = true
        · rw [hc] at h
          simp at h
        · rw [Bool.not_eq_true] at hc  
          rw [show (!(rawScan ((splitNl content).drop
              (startIdx (splitNl content)))).current.isEmpty) = true by simp [hc]] at h
          rw [if_pos rfl, List.mem_singleton] at h
          subst h
          refine ⟨hpred.2, ?_⟩
          intro hnil2
          rw [hnil2] at hc
          simp at hc
      
    have hsplit : splitNl g = c := by
      rw [← hgc]
      exact splitOnChar_joinOnChar '\n' c hcprops.2 hcprops.1
    rw [hsplit]
    exact hcf.2

theorem claim_C4_witness :
    ("a = 1").toList ∈ split_by_blank_lines (("a = 1\n\n# c\n\nb = 2").toList) ∧
    hasDeps (splitNl (("a = 1").toList)) = true :=
  ⟨by decide, (claim_C4 (("a = 1\n\n# c\n\nb = 2").toList)).2 (("a = 1").toList) (by decide)⟩

/-! ## Claim C8: unrecognized headers close sections -/

theorem extractStep_unrecognized_header (st : ExtractState) (l : Str)
    (h : matchSection l = none) (hh : isHeaderLine l = true) :
    extractStep st l = ⟨none, [], flushSection st⟩ := by
  simp [extractStep, h, hh]

theorem extractStep_none_state (S : List (Str × Str)) (l : Str)
    (h : matchSection l = none) :
    extractStep ⟨none, [], S⟩ l = ⟨none, [], S⟩ := by
  unfold extractStep
  rw [h]
  by_cases hh : isHeaderLine l = true
  · rw [if_pos hh]
    rfl
  · rw [if_neg hh]

theorem foldl_extract_none (mid : List Str) (S : List (Str × Str))
    (h : ∀ l ∈ mid, matchSection l = none) :
    mid.foldl extractStep ⟨none, [], S⟩ = ⟨none, [], S⟩ := by
  induction mid with
  | nil => rfl
  | cons l ls ih =>
    rw [List.foldl_cons, extractStep_none_state S l (h l (by simp))]
    exact ih (fun x hx => h x (List.mem_cons_of_mem l hx))

theorem mem_dictSet_self (d : List (Str × Str)) (k v : Str) : (k, v) ∈ dictSet d k v := by
  unfold dictSet
  split_ifs with h
  · rw [List.any_eq_true] at h
    obtain ⟨p, hp, hpk⟩ := h
    refine List.mem_map.mpr ⟨p, hp, ?_⟩
    rw [if_pos hpk]
  · simp

theorem flushSection_open (st : ExtractState) (name : Str) (hc : st.cur = some name)
    (hne : st.content ≠ []) :
    flushSection st = dictSet st.sections name (joinNl st.content) := by
  unfold flushSection
  rw [hc]
  show (if st.content.isEmpty = true then st.sections
    else dictSet st.sections name (joinNl st.content)) =
    dictSet st.sections name (joinNl st.content)
  rw [if_neg (by simp [hne])]

/-- C8: a bracketed-header line that is not one of the four recognized
dependency headers closes the currently open section: the result is computed
by continuing after that header from the flushed state, and whenever a
section is open with collected content the flush writes that section's
joined content into the result mapping (so the entry is a member of it);
the unrecognized lines after the header, up to the next recognized header,
are discarded (removing them does not change the result); and a manifest
with no recognized section headers yields the empty mapping. -/
theorem claim_C8 (content : Str) (pre : List Str) (hdr : Str) (mid rest tl : List Str) :
    (splitNl content = pre ++ hdr :: tl → matchSection hdr = none →
      isHeaderLine hdr = true →
      (extract_dependency_sections content =
        flushSection (tl.foldl extractStep
          ⟨none, [], flushSection (pre.foldl extractStep initES)⟩) ∧
      ∀ name, (pre.foldl extractStep initES).cur = some name →
        (pre.foldl extractStep initES).content ≠ [] →
        flushSection (pre.foldl extractStep initES) =
          dictSet (pre.foldl extractStep initES).sections name
            (joinNl (pre.foldl extractStep initES).content) ∧
        (name, joinNl (pre.foldl extractStep initES).content) ∈
          flushSection (pre.foldl extractStep initES))) ∧
    (splitNl content = pre ++ hdr :: (mid ++ rest) → matchSection hdr = none →
      isHeaderLine hdr = true → (∀ l ∈ mid, matchSection l = none) →
      extract_dependency_sections content = extractLines (pre ++ hdr :: rest)) ∧
    ((∀ l ∈ splitNl content, matchSection l = none) →
      extract_dependency_sections content = []) := by
  refine ⟨?_, ?_, ?_⟩
  · intro hsp hm hh
    constructor
    · unfold extract_dependency_sections extractLines
      rw [hsp, List.foldl_append, List.foldl_cons,
        extractStep_unrecognized_header _ hdr hm hh]
    · intro name hcur hcont
      have hfl := flushSection_open (pre.foldl extractStep initES) name hcur hcont
      exact ⟨hfl, hfl ▸ mem_dictSet_self _ name _⟩
  · intro hsp hm hh hmid
    unfold extract_dependency_sections extractLines
    rw [hsp]
    have hskip : ∀ t2 : List Str, (pre ++ hdr :: t2).foldl extractStep initES =
        t2.foldl extractStep ⟨none, [], flushSection (pre.foldl extractStep initES)⟩ := by
      intro t2
      rw [List.foldl_append, List.foldl_cons,
        extractStep_unrecognized_header _ hdr hm hh]
    rw [hskip (mid ++ rest), hskip rest, List.foldl_append,
      foldl_extract_none mid _ hmid]
  · intro hall
    unfold extract_dependency_sections extractLines
    rw [show (initES : ExtractState) = ⟨none, [], []⟩ from rfl,
      foldl_extract_none (splitNl content) [] hall]
    rfl

theorem claim_C8_witness :
    (splitNl (("[dependencies]\na = \"1\"\n[patch.x]\ndropped = 1").toList) =
        [("[dependencies]").toList, ("a = \"1\"").toList] ++ ("[patch.x]").toList ::
          [("dropped = 1").toList] ∧
      matchSection (("[patch.x]").toList) = none ∧
      isHeaderLine (("[patch.x]").toList) = true ∧
      ([("[dependencies]").toList, ("a = \"1\"").toList].foldl
          extractStep initES).cur = some (("dependencies").toList) ∧
      ([("[dependencies]").toList, ("a = \"1\"").toList].foldl
          extractStep initES).content ≠ []) ∧
    ((("dependencies").toList,
        joinNl ([("[dependencies]").toList, ("a = \"1\"").toList].foldl
          extractStep initES).content) ∈
      flushSection ([("[dependencies]").toList, ("a = \"1\"").toList].foldl
        extractStep initES)) ∧
    (extract_dependency_sections
        (("[dependencies]\na = \"1\"\n[patch.x]\ndropped = 1").toList) =
      extractLines ([("[dependencies]").toList, ("a = \"1\"").toList] ++
        [("[patch.x]").toList])) ∧
    ((∀ l ∈ splitNl (("x = 1\ny = 2").toList), matchSection l = none) ∧
      extract_dependency_sections (("x = 1\ny = 2").toList) = []) := by
  refine ⟨⟨by decide, by decide, by decide, by decide, by decide⟩, ?_, ?_, ⟨by decide, ?_⟩⟩
  · have h1 := ((claim_C8 (("[dependencies]\na = \"1\"\n[patch.x]\ndropped = 1").toList)
      [("[dependencies]").toList, ("a = \"1\"").toList] (("[patch.x]").toList)
      [("dropped = 1").toList] [] [("dropped = 1").toList]).1 (by decide) (by decide)
      (by decide)).2 (("dependencies").toList) (by decide) (by decide)
    exact h1.2
  · exact (claim_C8 (("[dependencies]\na = \"1\"\n[patch.x]\ndropped = 1").toList)
      [("[dependencies]").toList, ("a = \"1\"").toList] (("[patch.x]").toList)
      [("dropped = 1").toList] [] [("dropped = 1").toList]).2.1 (by decide) (by decide)
      (by decide) (by decide)
  · exact (claim_C8 (("x = 1\ny = 2").toList) [] [] [] [] []).2.2 (by decide)

/-! ## Claim C9 (corrected): branch fallback in download_cargo_toml -/

/-- C9 counterexample: a not-found response on the primary branch followed by
a non-HTTP exception (for example a timeout) on the alternate-branch retry is
raised to the caller — the inner `try` only catches `HTTPError` — refuting
the claim that any further fetch failure returns `None` and is never raised. -/
theorem claim_C9_counterexample :
    (download_cargo_toml
      (fun b => if b = ("main").toList then FetchRes.httpErr 404 else FetchRes.exc)
      (("main").toList)).1 = Except.error () := by
  rfl

/-- C9 (amended): a not-found (404) response for the primary branch causes
exactly one retry against the single alternate branch (main ↔ master); on
success the alternate content is returned as if it were the primary source;
an HTTP-error failure on the retry, a non-404 HTTP error on the primary
fetch, or any other primary-fetch exception returns `None` (the repository
is skipped) without raising — but a non-HTTP exception during the retry
propagates to the caller. -/
theorem claim_C9 (net : Str → FetchRes) (branch : Str) :
    (∀ c, net branch = FetchRes.ok c →
      download_cargo_toml net branch = (Except.ok (some c), [branch])) ∧
    (∀ c, net branch = FetchRes.httpErr 404 → net (altBranch branch) = FetchRes.ok c →
      download_cargo_toml net branch = (Except.ok (some c), [branch, altBranch branch])) ∧
    (∀ k, net branch = FetchRes.httpErr 404 → net (altBranch branch) = FetchRes.httpErr k →
      download_cargo_toml net branch = (Except.ok none, [branch, altBranch branch])) ∧
    (net branch = FetchRes.httpErr 404 → net (altBranch branch) = FetchRes.exc →
      download_cargo_toml net branch = (Except.error (), [branch, altBranch branch])) ∧
    (∀ k, k ≠ 404 → net branch = FetchRes.httpErr k →
      download_cargo_toml net branch = (Except.ok none, [branch])) ∧
    (net branch = FetchRes.exc →
      download_cargo_toml net branch = (Except.ok none, [branch])) := by
  refine ⟨?_, ?_, ?_, ?_, ?_, ?_⟩
  · intro c h
    unfold download_cargo_toml
    rw [h]
  · intro c h ha
    unfold download_cargo_toml
    rw [h, ha]
    simp
  · intro k h ha
    unfold download_cargo_toml
    rw [h, ha]
    simp
  · intro h ha
    unfold download_cargo_toml
    rw [h, ha]
    simp
  · intro k hk h
    unfold download_cargo_toml
    rw [h]
    simp [hk]
  · intro h
    unfold download_cargo_toml
    rw [h]

theorem claim_C9_witness :
    ((fun b => if b = ("main").toList then FetchRes.httpErr 404
        else FetchRes.ok (("x").toList)) (("main").toList) = FetchRes.httpErr 404 ∧
      (fun b => if b = ("main").toList then FetchRes.httpErr 404
        else FetchRes.ok (("x").toList)) (altBranch (("main").toList)) =
        FetchRes.ok (("x").toList)) ∧
    download_cargo_toml
      (fun b => if b = ("main").toList then FetchRes.httpErr 404
        else FetchRes.ok (("x").toList)) (("main").toList) =
      (Except.ok (some (("x").toList)), [("main").toList, altBranch (("main").toList)]) := by
  refine ⟨⟨by decide, by decide⟩, ?_⟩
  exact (claim_C9 (fun b => if b = ("main").toList then FetchRes.httpErr 404
    else FetchRes.ok (("x").toList)) (("main").toList)).2.1 (("x").toList)
    (by decide) (by decide)

/-! ## Claim C10: hash invariance under metadata lines and outer whitespace -/

theorem isMetaLine_ws_cons (c : Char) (l : Str) (hc : isPySpace c = true) :
    isMetaLine (c :: l) = isMetaLine l := by
  unfold isMetaLine
  rw [show c :: l = [c] ++ l from rfl, pyStrip_ws_left [c] l (by simp [hc])]

theorem isMetaLine_ws_concat (l : Str) (c : Char) (hc : isPySpace c = true) :
    isMetaLine (l ++ [c]) = isMetaLine l := by
  unfold isMetaLine
  rw [pyStrip_ws_right l [c] (by simp [hc])]

theorem normalize_cons_ws (c : Char) (x : Str) (hc : isPySpace c = true) :
    normalizeContent (c :: x) = normalizeContent x := by
  by_cases hnl : c = '\n'
  · subst hnl
    unfold normalizeContent splitNl joinNl
    rw [splitOnChar_cons, if_pos (by rfl), List.filter_cons,
      show (!isMetaLine ([] : Str)) = true from rfl, if_pos rfl]
    cases hF : (splitOnChar '\n' x).filter (fun l => !isMetaLine l) with
    | nil => rfl
    | cons f fs =>
      rw [joinOnChar_cons '\n' [] (f :: fs) (by simp), List.nil_append]
      exact pyStrip_ws_left ['\n'] _ (by decide)
  · unfold normalizeContent splitNl joinNl
    rw [splitOnChar_cons, if_neg (by simp [hnl])]
    obtain ⟨hd, tl, hx⟩ := List.exists_cons_of_ne_nil (splitOnChar_ne_nil '\n' x)
    rw [hx]
    simp only [List.headD_cons, List.tail_cons]
    rw [List.filter_cons, List.filter_cons, isMetaLine_ws_cons c hd hc]
    by_cases hm : isMetaLine hd = true
    · rw [hm]
      simp only [Bool.not_true, Bool.false_eq_true, if_false]
    · rw [Bool.not_eq_true] at hm
      rw [hm]
      simp only [Bool.not_false, if_true]
      cases hF : tl.filter (fun l => !isMetaLine l) with
      | nil =>
        show pyStrip ([c] ++ hd) = pyStrip hd
        exact pyStrip_ws_left [c] hd (by simp [hc])
      | cons f fs =>
        rw [joinOnChar_cons '\n' (c :: hd) (f :: fs) (by simp),
          joinOnChar_cons '\n' hd (f :: fs) (by simp)]
        show pyStrip ([c] ++ (hd ++ '\n' :: joinOnChar '\n' (f :: fs))) =
          pyStrip (hd ++ '\n' :: joinOnChar '\n' (f :: fs))
        exact pyStrip_ws_left [c] _ (by simp [hc])

theorem normalize_concat_ws (x : Str) (c : Char) (hc : isPySpace c = true) :
    normalizeContent (x ++ [c]) = normalizeContent x := by
  by_cases hnl : c = '\n'
  · subst hnl
    unfold normalizeContent splitNl joinNl
    rw [show x ++ ['\n'] = x ++ '\n' :: [] from rfl, splitOnChar_append_sep,
      List.filter_append,
      show (splitOnChar '\n' ([] : Str)).filter (fun l => !isMetaLine l) = [[]] from rfl]
    cases hF : (splitOnChar '\n' x).filter (fun l => !isMetaLine l) with
    | nil => rfl
    | cons f fs =>
      rw [joinOnChar_append_last '\n' (f :: fs) [] (by simp)]
      exact pyStrip_ws_right _ ['\n'] (by decide)
  · unfold normalizeContent splitNl joinNl
    rw [splitOnChar_append_last '\n' c x hnl]
    obtain ⟨I, lst, hS⟩ : ∃ I lst, splitOnChar '\n' x = I ++ [lst] := by
      rcases (List.eq_nil_or_concat (splitOnChar '\n' x)).resolve_left
        (splitOnChar_ne_nil '\n' x) with ⟨L, b, hb⟩
      exact ⟨L, b, by rw [hb, List.concat_eq_append]⟩
    rw [hS, List.dropLast_concat, List.getLastD_concat]
    by_cases hm : isMetaLine lst = true
    · have h1 : (I ++ [lst ++ [c]]).filter (fun l => !isMetaLine l) =
          I.filter (fun l => !isMetaLine l) := by
        rw [List.filter_append]
        simp [isMetaLine_ws_concat lst c hc, hm]
      have h2 : (I ++ [lst]).filter (fun l => !isMetaLine l) =
          I.filter (fun l => !isMetaLine l) := by
        rw [List.filter_append]
        simp [hm]
      rw [h1, h2]
    · rw [Bool.not_eq_true] at hm
      have h1 : (I ++ [lst ++ [c]]).filter (fun l => !isMetaLine l) =
          I.filter (fun l => !isMetaLine l) ++ [lst ++ [c]] := by
        rw [List.filter_append]
        simp [isMetaLine_ws_concat lst c hc, hm]
      have h2 : (I ++ [lst]).filter (fun l => !isMetaLine l) =
          I.filter (fun l => !isMetaLine l) ++ [lst] := by
        rw [List.filter_append]
        simp [hm]
      rw [h1, h2]
      cases hG : I.filter (fun l => !isMetaLine l) with
      | nil =>
        show pyStrip (lst ++ [c]) = pyStrip lst
        exact pyStrip_ws_right lst [c] (by simp [hc])
      | cons g gs =>
        rw [joinOnChar_append_last '\n' _ _ (by simp),
          joinOnChar_append_last '\n' _ _ (by simp),
          show joinOnChar '\n' (g :: gs) ++ '\n' :: (lst ++ [c]) =
            (joinOnChar '\n' (g :: gs) ++ '\n' :: lst) ++ [c] by simp]
        exact pyStrip_ws_right _ [c] (by simp [hc])

theorem normalize_ws_invariant (w s v : Str) (hw : ∀ c ∈ w, isPySpace c = true)
    (hv : ∀ c ∈ v, isPySpace c = true) :
    normalizeContent (w ++ s ++ v) = normalizeContent s := by
  induction w with
  | nil =>
    rw [List.nil_append]
    induction v using List.reverseRecOn with
    | nil => rw [List.append_nil]
    | append_singleton v' a ih =>
      rw [← List.append_assoc,
        normalize_concat_ws (s ++ v') a (hv a (by simp))]
      exact ih (fun c hc => hv c (List.mem_append_left _ hc))
  | cons c w' ih =>
    rw [List.cons_append, List.cons_append,
      normalize_cons_ws c (w' ++ s ++ v) (hw c (by simp))]
    exact ih (fun x hx => hw x (List.mem_cons_of_mem c hx))

theorem filter_insertIdx (i : Nat) (m : Str) (ls : List Str) (p : Str → Bool)
    (hm : p m = false) :
    (List.insertIdx i m ls).filter p = ls.filter p := by
  induction ls generalizing i with
  | nil =>
    cases i with
    | zero => simp [show List.insertIdx 0 m ([] : List Str) = [m] from rfl, hm]
    | succ j => rfl
  | cons l t ih =>
    cases i with
    | zero =>
      rw [show List.insertIdx 0 m (l :: t) = m :: l :: t from rfl, List.filter_cons, hm]
      rfl
    | succ j =>
      rw [List.insertIdx_succ_cons, List.filter_cons, List.filter_cons, ih j]

theorem insertIdx_ne_nil (i : Nat) (m : Str) (ls : List Str) (h : ls ≠ []) :
    List.insertIdx i m ls ≠ [] := by
  cases ls with
  | nil => exact absurd rfl h
  | cons l t =>
    cases i with
    | zero => simp [show List.insertIdx 0 m (l :: t) = m :: l :: t from rfl]
    | succ j =>
      rw [List.insertIdx_succ_cons]
      simp

theorem mem_insertIdx_or (i : Nat) (m x : Str) (ls : List Str)
    (h : x ∈ List.insertIdx i m ls) : x = m ∨ x ∈ ls := by
  induction ls generalizing i with
  | nil =>
    cases i with
    | zero =>
      rw [show List.insertIdx 0 m ([] : List Str) = [m] from rfl] at h
      exact Or.inl (List.mem_singleton.mp h)
    | succ j => exact absurd h (by simp [show List.insertIdx (j+1) m ([] : List Str) = [] from rfl])
  | cons l t ih =>
    cases i with
    | zero =>
      rw [show List.insertIdx 0 m (l :: t) = m :: l :: t from rfl] at h
      rcases List.mem_cons.mp h with h1 | h1
      · exact Or.inl h1
      · exact Or.inr h1
    | succ j =>
      rw [List.insertIdx_succ_cons] at h
      rcases List.mem_cons.mp h with h1 | h1
      · exact Or.inr (h1 ▸ List.mem_cons_self l t)
      · rcases ih j h1 with h2 | h2
        · exact Or.inl h2
        · exact Or.inr (List.mem_cons_of_mem l h2)

/-- C10: `compute_content_hash` is invariant under inserting (equivalently,
removing) a metadata-comment line at any line position of the text, and
under adding or removing leading or trailing whitespace of the whole text. -/
theorem claim_C10 :
    (∀ (content : Str) (i : Nat) (m : Str), isMetaLine m = true → ('\n' : Char) ∉ m →
      compute_content_hash (joinNl (List.insertIdx i m (splitNl content))) =
        compute_content_hash content) ∧
    (∀ (content w v : Str), (∀ c ∈ w, isPySpace c = true) →
      (∀ c ∈ v, isPySpace c = true) →
      compute_content_hash (w ++ content ++ v) = compute_content_hash content) := by
  constructor
  · intro content i m hmeta hnl
    unfold compute_content_hash
    have hnorm : normalizeContent (joinNl (List.insertIdx i m (splitNl content))) =
        normalizeContent content := by
      have hlines : ∀ l ∈ splitNl content, ('\n' : Char) ∉ l := fun l hl =>
        mem_splitOnChar_not_sep '\n' content l hl
      have hall : ∀ l ∈ List.insertIdx i m (splitNl content), ('\n' : Char) ∉ l := by
        intro l hl
        rcases mem_insertIdx_or i m l _ hl with h | h
        · exact h ▸ hnl
        · exact hlines l h
      have hne : List.insertIdx i m (splitNl content) ≠ [] :=
        insertIdx_ne_nil _ _ _ (splitOnChar_ne_nil '\n' content)
      unfold normalizeContent
      rw [show splitNl (joinNl (List.insertIdx i m (splitNl content))) =
        List.insertIdx i m (splitNl content) from
          splitOnChar_joinOnChar '\n' _ hne hall,
        filter_insertIdx i m _ _ (by simp [hmeta])]
    rw [hnorm]
  · intro content w v hw hv
    unfold compute_content_hash
    rw [normalize_ws_invariant w content v hw hv]

theorem claim_C10_witness :
    (isMetaLine (("# Source: x").toList) = true ∧
      ('\n' : Char) ∉ (("# Source: x").toList) ∧
      compute_content_hash (joinNl (List.insertIdx 1 (("# Source: x").toList)
          (splitNl (("a = 1\nb = 2").toList)))) =
        compute_content_hash (("a = 1\nb = 2").toList)) ∧
    ((∀ c ∈ ([' ', '\n'] : Str), isPySpace c = true) ∧
      (∀ c ∈ (['\t'] : Str), isPySpace c = true) ∧
      compute_content_hash (([' ', '\n'] : Str) ++ (("a = 1").toList) ++ ['\t']) =
        compute_content_hash (("a = 1").toList)) := by
  refine ⟨⟨by decide, by decide, ?_⟩, ⟨by decide, by decide, ?_⟩⟩
  · exact claim_C10.1 (("a = 1\nb = 2").toList) 1 (("# Source: x").toList)
      (by decide) (by decide)
  · exact claim_C10.2 (("a = 1").toList) [' ', '\n'] ['\t'] (by decide) (by decide)

/-! ## Lemmas: hex digests -/

theorem hexDigit_hex (k : Nat) (h : k < 16) : isHexChar (hexDigit k) = true := by
  interval_cases k <;> decide

theorem mem_toHex8_hex (x : Nat) (c : Char) (h : c ∈ toHex8 x) : isHexChar c = true := by
  unfold toHex8 at h
  obtain ⟨i, _, hc⟩ := List.mem_map.mp h
  rw [← hc]
  exact hexDigit_hex _ (Nat.mod_lt _ (by norm_num))

theorem mem_sha256hex_hex (m : List Nat) (c : Char) (h : c ∈ sha256hex m) :
    isHexChar c = true := by
  unfold sha256hex at h
  simp only [List.mem_append] at h
  rcases h with ((((((h | h) | h) | h) | h) | h) | h) | h <;> exact mem_toHex8_hex _ _ h

theorem sha256hex_length (m : List Nat) : (sha256hex m).length = 64 := by
  unfold sha256hex toHex8
  simp

theorem hash_no_newline (s : Str) : ('\n' : Char) ∉ compute_content_hash s := by
  intro h
  have := mem_sha256hex_hex _ '\n' h
  simp [isHexChar] at this

theorem key_length_16 (s : Str) : ((compute_content_hash s).take 16).length = 16 := by
  rw [List.length_take]
  unfold compute_content_hash
  rw [sha256hex_length]
  decide

theorem key_hex (s : Str) (c : Char) (h : c ∈ (compute_content_hash s).take 16) :
    isHexChar c = true :=
  mem_sha256hex_hex _ c (List.take_subset _ _ h)

/-! ## Lemmas: sorting and deduplication of source lists -/

theorem mem_dedupStrs (l : List Str) (x : Str) : x ∈ dedupStrs l ↔ x ∈ l := by
  induction l with
  | nil => simp [dedupStrs]
  | cons a t ih =>
    simp only [dedupStrs, List.mem_cons, List.mem_filter, ih]
    constructor
    · rintro (h | ⟨h, _⟩)
      · exact Or.inl h
      · exact Or.inr h
    · rintro (h | h)
      · exact Or.inl h
      · by_cases hxa : x = a
        · exact Or.inl hxa
        · exact Or.inr ⟨h, by simp [hxa]⟩

theorem mem_insertSorted (x y : Str) (l : List Str) :
    y ∈ insertSorted x l ↔ y = x ∨ y ∈ l := by
  induction l with
  | nil => simp [insertSorted]
  | cons a t ih =>
    unfold insertSorted
    split_ifs with h
    · simp only [List.mem_cons]
    · simp only [List.mem_cons, ih]
      tauto

theorem mem_sortStrs (x : Str) (l : List Str) : x ∈ sortStrs l ↔ x ∈ l := by
  induction l with
  | nil => simp [sortStrs]
  | cons a t ih =>
    show x ∈ insertSorted a (sortStrs t) ↔ _
    rw [mem_insertSorted, ih]
    simp

theorem strLt_asymm (a b : Str) (h : strLt a b = true) : strLt b a = false := by
  induction a generalizing b with
  | nil =>
    cases b with
    | nil => simp [strLt] at h
    | cons c cs => rfl
  | cons c cs ih =>
    cases b with
    | nil => simp [strLt] at h
    | cons d ds =>
      simp only [strLt, Bool.or_eq_true, Bool.and_eq_true, decide_eq_true_eq,
        beq_iff_eq] at h ⊢
      rw [Bool.or_eq_false_iff, Bool.and_eq_false_iff]
      rcases h with h1 | ⟨h2, h3⟩
      · constructor
        · simp only [decide_eq_false_iff_not]
          exact not_lt_of_lt h1
        · left
          simp only [beq_eq_false_iff_ne]
          exact (ne_of_gt h1)
      · subst h2
        constructor
        · simp
        · right
          exact ih ds h3

theorem strLt_total (a b : Str) (h : a ≠ b) : strLt a b = true ∨ strLt b a = true := by
  induction a generalizing b with
  | nil =>
    cases b with
    | nil => exact absurd rfl h
    | cons c cs => exact Or.inl rfl
  | cons c cs ih =>
    cases b with
    | nil => exact Or.inr rfl
    | cons d ds =>
      rcases lt_trichotomy c d with hcd | hcd | hcd
      · left
        simp [strLt, hcd]
      · subst hcd
        have hne : cs ≠ ds := by
          intro hx
          exact h (by rw [hx])
        rcases ih ds hne with h1 | h1
        · left
          simp [strLt, h1]
        · right
          simp [strLt, h1]
      · right
        simp [strLt, hcd]

theorem sortStrs_pair_comm (s1 s2 : Str) (h : s1 ≠ s2) :
    sortStrs (dedupStrs [s1, s2]) = sortStrs (dedupStrs [s2, s1]) := by
  have h1 : dedupStrs [s1, s2] = [s1, s2] := by
    simp [dedupStrs, Ne.symm h]
  have h2 : dedupStrs [s2, s1] = [s2, s1] := by
    simp [dedupStrs, h]
  rw [h1, h2]
  show insertSorted s1 (insertSorted s2 []) = insertSorted s2 (insertSorted s1 [])
  rw [show insertSorted s2 [] = [s2] from rfl, show insertSorted s1 [] = [s1] from rfl]
  show (if strLt s1 s2 = true then [s1, s2] else s2 :: insertSorted s1 []) =
    (if strLt s2 s1 = true then [s2, s1] else s1 :: insertSorted s2 [])
  rcases strLt_total s1 s2 h with hlt | hlt
  · rw [if_pos hlt, if_neg (by simp [strLt_asymm s1 s2 hlt])]
    rfl
  · rw [if_neg (by simp [strLt_asymm s2 s1 hlt]), if_pos hlt]
    rfl

/-! ## Lemmas: the stored hash-file layout -/

theorem startsWith_self_append (p x : Str) : startsWith (p ++ x) p = true := by
  induction p with
  | nil => cases x <;> rfl
  | cons c cs ih => simp [startsWith, ih]

theorem joinCommaSp_not_mem (x : Char) (srcs : List Str) (hx1 : x ≠ ',') (hx2 : x ≠ ' ')
    (h : ∀ s ∈ srcs, x ∉ s) : x ∉ joinCommaSp srcs := by
  induction srcs with
  | nil => simp [joinCommaSp]
  | cons s ss ih =>
    cases ss with
    | nil => exact h s (by simp)
    | cons t ts =>
      rw [show joinCommaSp (s :: t :: ts) = s ++ ',' :: ' ' :: joinCommaSp (t :: ts) from rfl]
      intro hmem
      rcases List.mem_append.mp hmem with h1 | h1
      · exact h s (by simp) h1
      · rcases List.mem_cons.mp h1 with h2 | h2
        · exact hx1 h2
        · rcases List.mem_cons.mp h2 with h3 | h3
          · exact hx2 h3
          · exact ih (fun s' hs' => h s' (List.mem_cons_of_mem _ hs')) h3

theorem splitNl_initialFile (h0 : Str) (srcs : List Str) (c : Str)
    (hh : ('\n' : Char) ∉ h0) (hs : ∀ s ∈ srcs, ('\n' : Char) ∉ s) :
    splitNl (initialFile h0 srcs c) =
      (hashLinePre ++ h0) :: (srcLinePre ++ joinCommaSp srcs) :: autoLine :: [] ::
        (splitNl c ++ [[]]) := by
  have hjs : ('\n' : Char) ∉ joinCommaSp srcs :=
    joinCommaSp_not_mem '\n' srcs (by decide) (by decide) hs
  have hterm : initialFile h0 srcs c =
      (hashLinePre ++ h0) ++ '\n' :: ((srcLinePre ++ joinCommaSp srcs) ++
        '\n' :: (autoLine ++ '\n' :: '\n' :: (c ++ ['\n']))) := by
    simp [initialFile]
  unfold splitNl
  rw [hterm, splitOnChar_append_sep, splitOnChar_append_sep, splitOnChar_append_sep,
    splitOnChar_no_sep '\n' (hashLinePre ++ h0) (by
      intro hm
      rcases List.mem_append.mp hm with h1 | h1
      · revert h1
        decide
      · exact hh h1),
    splitOnChar_no_sep '\n' (srcLinePre ++ joinCommaSp srcs) (by
      intro hm
      rcases List.mem_append.mp hm with h1 | h1
      · revert h1
        decide
      · exact hjs h1),
    splitOnChar_no_sep '\n' autoLine (by decide),
    splitOnChar_cons, if_pos (by rfl),
    splitOnChar_append_sep]
  simp [splitOnChar_nil]

theorem startsWith_hashLine (h0 : Str) : startsWith (hashLinePre ++ h0) srcTag = false := rfl

theorem startsWith_srcLine (x : Str) : startsWith (srcLinePre ++ x) srcTag = true := by
  rw [(by decide : srcLinePre = srcTag ++ [' ']), List.append_assoc]
  exact startsWith_self_append srcTag ([' '] ++ x)

theorem findSourcesLine_file (h0 : Str) (J : Str) (rest : List Str) :
    findSourcesLine ((hashLinePre ++ h0) :: (srcLinePre ++ J) :: rest) =
      some (srcLinePre ++ J) := by
  unfold findSourcesLine
  rw [@List.find?_cons_of_neg Str (fun l => startsWith l srcTag) (hashLinePre ++ h0)
    ((srcLinePre ++ J) :: rest) (by simp [startsWith_hashLine h0])]
  exact @List.find?_cons_of_pos Str (fun l => startsWith l srcTag) (srcLinePre ++ J) rest
    (startsWith_srcLine J)

theorem replaceSourcesLine_file (h0 : Str) (J : Str) (rest : List Str) (nl : Str) :
    replaceSourcesLine ((hashLinePre ++ h0) :: (srcLinePre ++ J) :: rest) nl =
      (hashLinePre ++ h0) :: nl :: rest := by
  unfold replaceSourcesLine
  rw [if_neg (by simp [startsWith_hashLine h0])]
  unfold replaceSourcesLine
  rw [if_pos (startsWith_srcLine J)]

theorem parse_join_comma (srcs : List Str) (hne : srcs ≠ [])
    (hgood : ∀ s ∈ srcs, (',' : Char) ∉ s ∧ pyStrip s = s) :
    (splitComma (' ' :: joinCommaSp srcs)).map pyStrip = srcs := by
  induction srcs with
  | nil => exact absurd rfl hne
  | cons s ss ih =>
    cases ss with
    | nil =>
      show ((splitOnChar ',' (' ' :: s)).map pyStrip) = [s]
      rw [splitOnChar_no_sep ',' (' ' :: s) (by
        intro hm
        rcases List.mem_cons.mp hm with h1 | h1
        · exact absurd h1.symm (by decide)
        · exact (hgood s (by simp)).1 h1)]
      rw [List.map_singleton, show (' ' :: s : Str) = [' '] ++ s from rfl,
        pyStrip_ws_left [' '] s (by decide), (hgood s (by simp)).2]
    | cons t ts =>
      show ((splitOnChar ',' (' ' :: (s ++ ',' :: ' ' :: joinCommaSp (t :: ts)))).map pyStrip) =
        s :: t :: ts
      rw [show (' ' :: (s ++ ',' :: ' ' :: joinCommaSp (t :: ts)) : Str) =
        (' ' :: s) ++ ',' :: (' ' :: joinCommaSp (t :: ts)) by simp,
        splitOnChar_append_sep,
        splitOnChar_no_sep ',' (' ' :: s) (by
          intro hm
          rcases List.mem_cons.mp hm with h1 | h1
          · exact absurd h1.symm (by decide)
          · exact (hgood s (by simp)).1 h1),
        List.map_append, List.map_singleton,
        show (' ' :: s : Str) = [' '] ++ s from rfl,
        pyStrip_ws_left [' '] s (by decide), (hgood s (by simp)).2]
      rw [show ((splitOnChar ',' (' ' :: joinCommaSp (t :: ts))).map pyStrip) = t :: ts from
        ih (by simp) (fun x hx => hgood x (List.mem_cons_of_mem s hx))]
      rfl

theorem parseSourcesLine_file (srcs : List Str) (hne : srcs ≠ [])
    (hgood : ∀ s ∈ srcs, (',' : Char) ∉ s ∧ pyStrip s = s) :
    parseSourcesLine (srcLinePre ++ joinCommaSp srcs) = srcs := by
  unfold parseSourcesLine
  rw [show (srcLinePre ++ joinCommaSp srcs).drop 10 = ' ' :: joinCommaSp srcs from rfl]
  exact parse_join_comma srcs hne hgood

theorem updateExisting_file (h0 : Str) (s0 : Str) (c : Str) (new : List Str)
    (hh : ('\n' : Char) ∉ h0) (hg0 : goodSource s0) :
    updateExisting (initialFile h0 [s0] c) new =
      joinNl ((hashLinePre ++ h0) ::
        (srcLinePre ++ joinCommaSp (sortStrs (dedupStrs (s0 :: new)))) ::
        autoLine :: [] :: (splitNl c ++ [[]])) := by
  have hsplit := splitNl_initialFile h0 [s0] c hh (by
    intro s hs
    rw [List.mem_singleton] at hs
    exact hs ▸ hg0.1)
  unfold updateExisting
  rw [hsplit, findSourcesLine_file h0 (joinCommaSp [s0]) _]
  simp only [parseSourcesLine_file [s0] (by simp) (by
      intro s hs
      rw [List.mem_singleton] at hs
      subst hs
      exact ⟨hg0.2.1, hg0.2.2⟩),
    replaceSourcesLine_file h0 (joinCommaSp [s0])]
  rfl

theorem storedSources_single (key file h0 J : Str) (tail : List Str)
    (hsplit : splitNl file = (hashLinePre ++ h0) :: (srcLinePre ++ J) :: tail) :
    storedSources [(key, file)] key = parseSourcesLine (srcLinePre ++ J) := by
  unfold storedSources
  have hlook : lookupStore [(key, file)] key = some file := by simp [lookupStore]
  rw [hlook]
  show (match findSourcesLine (splitNl file) with
    | some line => parseSourcesLine line
    | none => []) = parseSourcesLine (srcLinePre ++ J)
  rw [hsplit, findSourcesLine_file h0 J tail]

theorem splitNl_file_lines (h0 : Str) (srcs : List Str) (c : Str)
    (hh : ('\n' : Char) ∉ h0) (hsrc : ∀ s ∈ srcs, ('\n' : Char) ∉ s) :
    splitNl (joinNl ((hashLinePre ++ h0) ::
      (srcLinePre ++ joinCommaSp srcs) :: autoLine :: [] :: (splitNl c ++ [[]]))) =
    (hashLinePre ++ h0) :: (srcLinePre ++ joinCommaSp srcs) :: autoLine :: [] ::
      (splitNl c ++ [[]]) := by
  apply splitOnChar_joinOnChar
  · simp
  · intro l hl
    rcases List.mem_cons.mp hl with h1 | hl
    · subst h1
      intro hm
      rcases List.mem_append.mp hm with h1 | h1
      · revert h1
        decide
      · exact hh h1
    rcases List.mem_cons.mp hl with h1 | hl
    · subst h1
      intro hm
      rcases List.mem_append.mp hm with h1 | h1
      · revert h1
        decide
      · exact joinCommaSp_not_mem '\n' srcs (by decide) (by decide) hsrc h1
    rcases List.mem_cons.mp hl with h1 | hl
    · subst h1
      decide
    rcases List.mem_cons.mp hl with h1 | hl
    · subst h1
      simp
    rcases List.mem_append.mp hl with h1 | h1
    · exact mem_splitOnChar_not_sep '\n' c l h1
    · rw [List.mem_singleton] at h1
      subst h1
      simp

theorem pair_store (cA cB sA sB : Str)
    (hnorm : normalizeContent cB = normalizeContent cA)
    (hgA : goodSource sA) (hgB : goodSource sB) :
    (save_hashed_snippet [] cA [sA]).2 = (compute_content_hash cA).take 16 ∧
    (save_hashed_snippet (save_hashed_snippet [] cA [sA]).1 cB [sB]).2 =
      (compute_content_hash cA).take 16 ∧
    storedSources (save_hashed_snippet (save_hashed_snippet [] cA [sA]).1 cB [sB]).1
      ((compute_content_hash cA).take 16) = sortStrs (dedupStrs [sA, sB]) := by
  have hHB : compute_content_hash cB = compute_content_hash cA := by
    unfold compute_content_hash
    rw [hnorm]
  have h1a : (save_hashed_snippet [] cA [sA]).1 =
      [((compute_content_hash cA).take 16,
        initialFile (compute_content_hash cA) [sA] cA)] := rfl
  have h1b : (save_hashed_snippet [] cA [sA]).2 = (compute_content_hash cA).take 16 := rfl
  have h2 : save_hashed_snippet [((compute_content_hash cA).take 16,
        initialFile (compute_content_hash cA) [sA] cA)] cB [sB] =
      ([((compute_content_hash cA).take 16,
        updateExisting (initialFile (compute_content_hash cA) [sA] cA) [sB])],
        (compute_content_hash cA).take 16) := by
    unfold save_hashed_snippet
    rw [hHB]
    simp [lookupStore, storeSet]
  have h2a : (save_hashed_snippet [((compute_content_hash cA).take 16,
        initialFile (compute_content_hash cA) [sA] cA)] cB [sB]).1 =
      [((compute_content_hash cA).take 16,
        updateExisting (initialFile (compute_content_hash cA) [sA] cA) [sB])] := by
    rw [h2]
  have h2b : (save_hashed_snippet [((compute_content_hash cA).take 16,
        initialFile (compute_content_hash cA) [sA] cA)] cB [sB]).2 =
      (compute_content_hash cA).take 16 := by
    rw [h2]
  have hupd := updateExisting_file (compute_content_hash cA) sA cA [sB]
    (hash_no_newline cA) hgA
  have hsortmem : ∀ x ∈ sortStrs (dedupStrs (sA :: [sB])), x ∈ [sA, sB] := by
    intro x hx
    exact (mem_dedupStrs _ x).mp ((mem_sortStrs x _).mp hx)
  have hsortgood : ∀ x ∈ sortStrs (dedupStrs (sA :: [sB])), goodSource x := by
    intro x hx
    rcases List.mem_cons.mp (hsortmem x hx) with h | h
    · exact h ▸ hgA
    · rw [List.mem_singleton] at h
      exact h ▸ hgB
  have hsortne : sortStrs (dedupStrs (sA :: [sB])) ≠ [] :=
    List.ne_nil_of_mem ((mem_sortStrs sA _).mpr ((mem_dedupStrs _ sA).mpr (by simp)))
  refine ⟨h1b, ?_, ?_⟩
  · rw [h1a, h2b]
  · rw [h1a, h2a, hupd,
      storedSources_single _ _ (compute_content_hash cA)
        (joinCommaSp (sortStrs (dedupStrs (sA :: [sB])))) _
        (splitNl_file_lines (compute_content_hash cA) (sortStrs (dedupStrs (sA :: [sB])))
          cA (hash_no_newline cA) (fun s hs => (hsortgood s hs).1)),
      parseSourcesLine_file _ hsortne (fun s hs => ⟨(hsortgood s hs).2.1, (hsortgood s hs).2.2⟩)]

/-- C1: two groups with byte-identical normalized text, saved under two
different source identifiers in either order starting from an empty store,
get the same 16-hex-character storage key; after both are processed the
stored entry's source set contains both identifiers, and the final source
set does not depend on the processing order. -/
theorem claim_C1 (c1 c2 s1 s2 : Str)
    (hnorm : normalizeContent c1 = normalizeContent c2) (hs : s1 ≠ s2)
    (hg1 : goodSource s1) (hg2 : goodSource s2) :
    ((save_hashed_snippet [] c1 [s1]).2 = (compute_content_hash c1).take 16 ∧
      (save_hashed_snippet [] c2 [s2]).2 = (compute_content_hash c1).take 16) ∧
    (((compute_content_hash c1).take 16).length = 16 ∧
      ∀ ch ∈ (compute_content_hash c1).take 16, isHexChar ch = true) ∧
    (s1 ∈ storedSources (save_hashed_snippet (save_hashed_snippet [] c1 [s1]).1 c2 [s2]).1
        ((compute_content_hash c1).take 16) ∧
      s2 ∈ storedSources (save_hashed_snippet (save_hashed_snippet [] c1 [s1]).1 c2 [s2]).1
        ((compute_content_hash c1).take 16)) ∧
    storedSources (save_hashed_snippet (save_hashed_snippet [] c1 [s1]).1 c2 [s2]).1
        ((compute_content_hash c1).take 16) =
      storedSources (save_hashed_snippet (save_hashed_snippet [] c2 [s2]).1 c1 [s1]).1
        ((compute_content_hash c1).take 16) := by
  have hH : compute_content_hash c2 = compute_content_hash c1 := by
    unfold compute_content_hash
    rw [hnorm]
  have hA := pair_store c1 c2 s1 s2 hnorm.symm hg1 hg2
  have hB := pair_store c2 c1 s2 s1 hnorm hg2 hg1
  refine ⟨⟨hA.1, ?_⟩, ⟨key_length_16 c1, fun ch hch => key_hex c1 ch hch⟩, ⟨?_, ?_⟩, ?_⟩
  · rw [← hH]
    exact hB.1
  · rw [hA.2.2, mem_sortStrs]
    exact (mem_dedupStrs _ s1).mpr (by simp)
  · rw [hA.2.2, mem_sortStrs]
    exact (mem_dedupStrs _ s2).mpr (by simp)
  · rw [hA.2.2, ← hH]
    rw [hB.2.2]
    exact sortStrs_pair_comm s1 s2 hs

theorem claim_C1_witness :
    (normalizeContent (("a = \"1\"").toList) =
        normalizeContent (("# Source: other\na = \"1\"").toList) ∧
      ("r1/dependencies/group01").toList ≠ ("r2/dependencies/group01").toList ∧
      goodSource (("r1/dependencies/group01").toList) ∧
      goodSource (("r2/dependencies/group01").toList)) ∧
    (((compute_content_hash (("a = \"1\"").toList)).take 16).length = 16 ∧
      ("r1/dependencies/group01").toList ∈
        storedSources (save_hashed_snippet
          (save_hashed_snippet [] (("a = \"1\"").toList)
            [("r1/dependencies/group01").toList]).1
          (("# Source: other\na = \"1\"").toList) [("r2/dependencies/group01").toList]).1
          ((compute_content_hash (("a = \"1\"").toList)).take 16)) := by
  have h := claim_C1 (("a = \"1\"").toList) (("# Source: other\na = \"1\"").toList)
    (("r1/dependencies/group01").toList) (("r2/dependencies/group01").toList)
    (by decide) (by decide) (by decide) (by decide)
  exact ⟨⟨by decide, by decide, by decide, by decide⟩, ⟨h.2.1.1, h.2.2.1.1⟩⟩

/-- C5: when `save_hashed_snippet` is called for a key whose entry already
exists, the stored file changes only at its `# Sources:` line — rewritten to
the sorted, deduplicated union of the existing and new source identifiers —
and every other line, including the stored content, stays byte-identical to
what the first writer wrote. -/
theorem claim_C5 (c0 s0 c1 : Str) (srcs1 : List Str)
    (hnorm : normalizeContent c1 = normalizeContent c0) (hg0 : goodSource s0) :
    lookupStore (save_hashed_snippet [] c0 [s0]).1 ((compute_content_hash c0).take 16) =
      some (initialFile (compute_content_hash c0) [s0] c0) ∧
    lookupStore (save_hashed_snippet (save_hashed_snippet [] c0 [s0]).1 c1 srcs1).1
        ((compute_content_hash c0).take 16) =
      some (joinNl ((splitNl (initialFile (compute_content_hash c0) [s0] c0)).set 1
        (srcLinePre ++ joinCommaSp (sortStrs (dedupStrs (s0 :: srcs1)))))) := by
  have hH : compute_content_hash c1 = compute_content_hash c0 := by
    unfold compute_content_hash
    rw [hnorm]
  have h1a : (save_hashed_snippet [] c0 [s0]).1 =
      [((compute_content_hash c0).take 16,
        initialFile (compute_content_hash c0) [s0] c0)] := rfl
  have h2a : (save_hashed_snippet [((compute_content_hash c0).take 16,
        initialFile (compute_content_hash c0) [s0] c0)] c1 srcs1).1 =
      [((compute_content_hash c0).take 16,
        updateExisting (initialFile (compute_content_hash c0) [s0] c0) srcs1)] := by
    unfold save_hashed_snippet
    rw [hH]
    simp [lookupStore, storeSet]
  have hsplit0 := splitNl_initialFile (compute_content_hash c0) [s0] c0
    (hash_no_newline c0) (by
      intro s hs
      rw [List.mem_singleton] at hs
      exact hs ▸ hg0.1)
  constructor
  · rw [h1a]
    simp [lookupStore]
  · rw [h1a, h2a,
      updateExisting_file (compute_content_hash c0) s0 c0 srcs1 (hash_no_newline c0) hg0,
      hsplit0]
    simp [lookupStore]

theorem claim_C5_witness :
    (normalizeContent (("  a = \"1\"  ").toList) = normalizeContent (("a = \"1\"").toList) ∧
      goodSource (("r1/dependencies/group01").toList)) ∧
    lookupStore (save_hashed_snippet
        (save_hashed_snippet [] (("a = \"1\"").toList)
          [("r1/dependencies/group01").toList]).1
        (("  a = \"1\"  ").toList) [("r2/dependencies/group02").toList]).1
        ((compute_content_hash (("a = \"1\"").toList)).take 16) =
      some (joinNl ((splitNl (initialFile (compute_content_hash (("a = \"1\"").toList))
          [("r1/dependencies/group01").toList] (("a = \"1\"").toList))).set 1
        (srcLinePre ++ joinCommaSp (sortStrs (dedupStrs
          (("r1/dependencies/group01").toList :: [("r2/dependencies/group02").toList])))))) := by
  have h := claim_C5 (("a = \"1\"").toList) (("r1/dependencies/group01").toList)
    (("  a = \"1\"  ").toList) [("r2/dependencies/group02").toList]
    (by decide) (by decide)
  exact ⟨⟨by decide, by decide⟩, h.2⟩
